import Mathlib

/-!
Verification of the PKGINFO parser of the repose repository
(`src/pkginfo.rs`).

The tokenizer is written with nom 2.x combinator macros in the source.  We
embed it shallowly: a byte buffer is a `List Nat` (each element one byte),
and a parser is a function from bytes to an `IResult`, mirroring nom's
`IResult::Done / Incomplete / Error` (the `Needed` size payload and the
error-kind payload carry no information used by the program, so they are
dropped).  Combinator semantics follow nom 2.x:

* `tag!` compares the first `min` bytes; a proper prefix of the tag at end
  of input is `Incomplete`, a mismatch is `Error`.
* `take_until!("\n")` is `Incomplete` when no line feed is found.
* `space` / `multispace` fail on a leading non-matching byte, consume the
  maximal run otherwise, and return `Done` on empty input.
* `alt!` tries branches in order on `Error` only; `Incomplete` returns.
* `opt!` converts `Error` to a `Done` with `none`; `Incomplete` returns.
* `many0!` stops (returning `Done`) at the first `Error`, propagates
  `Incomplete`, and guards against non-consuming iterations; the guard is
  modelled by a fuel argument larger than the input length, which the
  grammar (every token consumes at least one byte) never exhausts.

The `Package`, `Entry` and `Metadata` types and their `From` conversions
live in the crate's `package.rs`, which is not part of the sources here;
those definitions are modelled from the specification and marked as such.
-/

/-- Byte buffers are lists of byte values. -/
abbrev Bytes := List Nat

/-- ASCII bytes of a Lean string literal (all literals used are ASCII). -/
def bs (s : String) : Bytes := s.toList.map (fun c => c.toNat)

/-- Byte class of nom's `space`: ASCII space and horizontal tab. -/
def isSpaceByte (c : Nat) : Bool := c = 32 || c = 9

/-- Byte class of nom's `multispace`: space, tab, carriage return, line feed. -/
def isMsByte (c : Nat) : Bool := c = 32 || c = 9 || c = 13 || c = 10

/-- Result of a nom 2.x parser, payloads of `Incomplete` and `Error` dropped. -/
inductive IResult (α : Type) where
  | done (rest : Bytes) (val : α)
  | incomplete
  | error
deriving DecidableEq, Repr

abbrev Parser (α : Type) := Bytes → IResult α

/-- Sequencing as in nom's `do_parse!`: `Error` and `Incomplete` propagate. -/
def pbind {α β : Type} (p : Parser α) (f : α → Parser β) : Parser β := fun i =>
  match p i with
  | .done rest v => f v rest
  | .incomplete => .incomplete
  | .error => .error

def pret {α : Type} (a : α) : Parser α := fun i => .done i a

/-- Alternative as in nom's `alt!`: the second branch is tried only on `Error`. -/
def palt {α : Type} (p q : Parser α) : Parser α := fun i =>
  match p i with
  | .error => q i
  | r => r

def pfail {α : Type} : Parser α := fun _ => .error

/-- nom's `opt!`. -/
def popt {α : Type} (p : Parser α) : Parser (Option α) := fun i =>
  match p i with
  | .done rest v => .done rest (some v)
  | .error => .done i none
  | .incomplete => .incomplete

/-- nom's `tag!`. -/
def tag (t : Bytes) : Parser Bytes := fun i =>
  if i.length < t.length then
    if i = t.take i.length then .incomplete else .error
  else
    if i.take t.length = t then .done (i.drop t.length) t else .error

/-- nom's `take_until!("\n")`: bytes before the first line feed; the line
feed stays in the remainder; `Incomplete` when no line feed exists. -/
def takeUntilNl : Parser Bytes := fun i =>
  match i with
  | [] => .incomplete
  | c :: cs =>
    if c = 10 then .done (c :: cs) []
    else
      match takeUntilNl cs with
      | .done rest v => .done rest (c :: v)
      | .incomplete => .incomplete
      | .error => .error

/-- nom 2.x `space`: error on a leading non-space byte, otherwise the
maximal run of spaces and tabs; empty input yields an empty `Done`. -/
def space : Parser Bytes := fun i =>
  match i with
  | [] => .done [] []
  | c :: _ =>
    if isSpaceByte c then .done (i.dropWhile isSpaceByte) (i.takeWhile isSpaceByte)
    else .error

/-- nom 2.x `multispace`, same shape over the larger byte class. -/
def multispace : Parser Bytes := fun i =>
  match i with
  | [] => .done [] []
  | c :: _ =>
    if isMsByte c then .done (i.dropWhile isMsByte) (i.takeWhile isMsByte)
    else .error

/-- Continuation byte 0x80-0xBF. -/
def contOk (c : Nat) : Bool := 128 ≤ c && c ≤ 191

/-- Allowed second byte of a three-byte sequence, per leading byte (E0
excludes overlongs, ED excludes surrogates). -/
def cont3Ok (c c1 : Nat) : Bool :=
  if c = 224 then 160 ≤ c1 && c1 ≤ 191
  else if c = 237 then 128 ≤ c1 && c1 ≤ 159
  else contOk c1

/-- Allowed second byte of a four-byte sequence, per leading byte (F0
excludes overlongs, F4 caps at U+10FFFF). -/
def cont4Ok (c c1 : Nat) : Bool :=
  if c = 240 then 144 ≤ c1 && c1 ≤ 191
  else if c = 244 then 128 ≤ c1 && c1 ≤ 143
  else contOk c1

/-- Validity test of `str::from_utf8`: the byte list is well-formed UTF-8. -/
def isValidUtf8 : Bytes → Bool
  | [] => true
  | c :: r =>
    if c ≤ 127 then isValidUtf8 r
    else if c < 194 then false
    else if c ≤ 223 then
      match r with
      | c1 :: r1 => contOk c1 && isValidUtf8 r1
      | [] => false
    else if c ≤ 239 then
      match r with
      | c1 :: c2 :: r2 => cont3Ok c c1 && contOk c2 && isValidUtf8 r2
      | _ => false
    else if c ≤ 244 then
      match r with
      | c1 :: c2 :: c3 :: r3 => cont4Ok c c1 && contOk c2 && contOk c3 && isValidUtf8 r3
      | _ => false
    else false

/-- The source's `value`: `take_until!("\n")` mapped through `str::from_utf8`
(`map_res!` turns a decode failure into `Error`).  The token keeps the raw
bytes; validity is all `from_utf8` adds. -/
def value : Parser Bytes := fun i =>
  match takeUntilNl i with
  | .done rest v => if isValidUtf8 v then .done rest v else .error
  | .incomplete => .incomplete
  | .error => .error

/-- Modelled from the spec: the closed `Entry` enum of `package.rs` (one
variant per recognized metadata key, section 3 of the spec). -/
inductive Entry where
  | Base | Description | Url | BuildDate | Packager | InstallSize
  | Groups | License | Replaces | Depends | Conflicts | Provides
  | OptDepends | MakeDepends | CheckDepends | Backups | BuildOptions
  | BuildDirectory | BuildEnvironment | SHA256Sum | BuildInstalled
deriving DecidableEq, Repr, Fintype

/-- Modelled from the spec: the tagged `Metadata` value of `package.rs`
(text, parsed unsigned size, parsed signed timestamp, or string list). -/
inductive Metadata where
  | Text (v : Bytes)
  | Size (n : Nat)
  | Timestamp (t : Int)
  | List (vs : List Bytes)
deriving DecidableEq, Repr

/-- Value kinds fixed per `Entry` (spec section 3). -/
inductive EntryKind where
  | text | size | timestamp | list
deriving DecidableEq, Repr

/-- Modelled from the spec: each Entry's fixed value kind (spec section 3).
`Text`: Base, Description, Url, Packager, BuildDirectory, SHA256Sum;
`Integer(Size)`: InstallSize; `Integer(Timestamp)`: BuildDate; `List`: the
rest. -/
def entryKind : Entry → EntryKind
  | .Base => .text
  | .Description => .text
  | .Url => .text
  | .Packager => .text
  | .BuildDirectory => .text
  | .SHA256Sum => .text
  | .InstallSize => .size
  | .BuildDate => .timestamp
  | .Groups => .list
  | .License => .list
  | .Replaces => .list
  | .Depends => .list
  | .Conflicts => .list
  | .Provides => .list
  | .OptDepends => .list
  | .MakeDepends => .list
  | .CheckDepends => .list
  | .Backups => .list
  | .BuildOptions => .list
  | .BuildEnvironment => .list
  | .BuildInstalled => .list

/-- The source's `Token` enum (`pkginfo.rs` lines 7-14). -/
inductive Token where
  | Comment
  | Name (v : Bytes)
  | Version (v : Bytes)
  | Arch (v : Bytes)
  | Metadata (e : Entry) (v : Bytes)
deriving DecidableEq, Repr

/-- Modelled from the spec: the `Package` record of `package.rs`.  The
`HashMap<Entry, Metadata>` (keys unique, iteration order irrelevant per the
spec) is modelled as an association list in first-insertion order with
unique keys. -/
structure Package where
  name : Bytes
  version : Bytes
  arch : Bytes
  metadata : List (Entry × Metadata)
deriving DecidableEq, Repr

/-- Fatal assembly outcomes: `duplicateScalar` is the `panic!` branch of
`build_pkg` (`pkginfo.rs` line 117); `malformedNumeric` is modelled from the
spec: a Size/Timestamp value failing integer parsing is fatal to the whole
parse (the conversion lives in the missing `package.rs`). -/
inductive BuildError where
  | malformedNumeric
  | duplicateScalar
deriving DecidableEq, Repr

def digit (c : Nat) : Bool := 48 ≤ c && c ≤ 57

def parseDigitsAux (acc : Nat) : Bytes → Option Nat
  | [] => some acc
  | c :: r => if digit c then parseDigitsAux (acc * 10 + (c - 48)) r else none

/-- Nonempty run of ASCII digits, as a natural number. -/
def parseDigits : Bytes → Option Nat
  | [] => none
  | c :: r => if digit c then parseDigitsAux (c - 48) r else none

/-- Modelled from the spec: unsigned integer parsing for `Integer(Size)`
values (Rust-style: optional leading plus sign, then digits). -/
def parseUnsigned : Bytes → Option Nat
  | 43 :: r => parseDigits r
  | v => parseDigits v

/-- Modelled from the spec: signed integer parsing for `Integer(Timestamp)`
values (optional sign, then digits). -/
def parseSigned : Bytes → Option Int
  | 43 :: r => (parseDigits r).map Int.ofNat
  | 45 :: r => (parseDigits r).map (fun n => -(n : Int))
  | v => (parseDigits v).map Int.ofNat

/-- Modelled from the spec: the `(Entry, value-text) -> Metadata` conversion
of `package.rs` used at a key's first occurrence (spec section 4.2): `Text`
stores the text verbatim, `Integer` kinds parse it (failure is fatal),
`List` makes a one-element list. -/
def metadataOf (e : Entry) (v : Bytes) : Except BuildError Metadata :=
  match entryKind e with
  | .text => .ok (.Text v)
  | .size =>
    match parseUnsigned v with
    | some n => .ok (.Size n)
    | none => .error .malformedNumeric
  | .timestamp =>
    match parseSigned v with
    | some n => .ok (.Timestamp n)
    | none => .error .malformedNumeric
  | .list => .ok (.List [v])

/-- The key table of the source's `metadata` parser (`pkginfo.rs` lines
59-82), in source order. -/
def entryKeyList : List (Bytes × Entry) :=
  [ (bs "pkgbase", .Base)
  , (bs "pkgdesc", .Description)
  , (bs "url", .Url)
  , (bs "builddate", .BuildDate)
  , (bs "packager", .Packager)
  , (bs "size", .InstallSize)
  , (bs "group", .Groups)
  , (bs "license", .License)
  , (bs "replaces", .Replaces)
  , (bs "depend", .Depends)
  , (bs "conflict", .Conflicts)
  , (bs "provides", .Provides)
  , (bs "optdepend", .OptDepends)
  , (bs "makedepend", .MakeDepends)
  , (bs "checkdepend", .CheckDepends)
  , (bs "backup", .Backups)
  , (bs "makepkgopt", .BuildOptions)
  , (bs "options", .BuildOptions)
  , (bs "builddir", .BuildDirectory)
  , (bs "buildenv", .BuildEnvironment)
  , (bs "pkgbuild_sha256sum", .SHA256Sum)
  , (bs "installed", .BuildInstalled)
  ]

/-- An ordered `alt!` over tag/result pairs, as in the source's `alt!` of
`tag!(..) => {|_| Entry::..}` branches. -/
def keyAlt (l : List (Bytes × Entry)) : Parser Entry :=
  l.foldr (fun p acc => palt (pbind (tag p.1) (fun _ => pret p.2)) acc) pfail

/-- The source's `comment` parser (lines 16-20). -/
def comment : Parser Token :=
  pbind (tag [35]) (fun _ => pbind takeUntilNl (fun _ => pret Token.Comment))

/-- The source's `seperator` parser (lines 30-35): mandatory space, `=`,
mandatory space. -/
def seperator : Parser Unit :=
  pbind space (fun _ => pbind (tag [61]) (fun _ => pbind space (fun _ => pret ())))

/-- Common shape of the source's `pkgname` / `pkgver` / `arch` parsers:
a literal key, `seperator`, then a value. -/
def keyValP (k : Bytes) (f : Bytes → Token) : Parser Token :=
  pbind (tag k) (fun _ => pbind seperator (fun _ => pbind value (fun v => pret (f v))))

/-- The source's `pkgname` parser (lines 37-42). -/
def pkgname : Parser Token := keyValP (bs "pkgname") Token.Name

/-- The source's `pkgver` parser (lines 44-49). -/
def pkgver : Parser Token := keyValP (bs "pkgver") Token.Version

/-- The source's `arch` parser (lines 51-56). -/
def arch : Parser Token := keyValP (bs "arch") Token.Arch

/-- The source's `metadata` parser (lines 58-88): key table, mandatory
space, `=`, optional space, value. -/
def metadata : Parser Token :=
  pbind (keyAlt entryKeyList) (fun e =>
    pbind space (fun _ =>
      pbind (tag [61]) (fun _ =>
        pbind (popt space) (fun _ =>
          pbind value (fun v => pret (Token.Metadata e v))))))

/-- The `alt!(comment | pkgname | pkgver | arch | metadata)` of the source's
`pkginfo` parser (line 92). -/
def lineAlt : Parser Token :=
  palt comment (palt pkgname (palt pkgver (palt arch metadata)))

/-- One iteration of the source's `many0!` body (lines 91-95): a token then
`opt!(multispace)`. -/
def lineStep : Parser Token :=
  pbind lineAlt (fun t => pbind (popt multispace) (fun _ => pret t))

/-- nom 2.x `many0!` with explicit fuel standing in for its non-consumption
guard; `pkginfo` supplies fuel exceeding the input length, which the
grammar (every token consumes at least one byte) cannot exhaust. -/
def many0F {α : Type} (p : Parser α) : Nat → Parser (List α)
  | 0, _ => .error
  | fuel + 1, i =>
    if i = [] then .done [] []
    else
      match p i with
      | .error => .done i []
      | .incomplete => .incomplete
      | .done i2 o =>
        match many0F p fuel i2 with
        | .done r os => .done r (o :: os)
        | .incomplete => .incomplete
        | .error => .error

/-- The source's `pkginfo` parser (lines 90-96). -/
def pkginfo : Parser (List Token) := fun i => many0F lineStep (i.length + 1) i

/-- The mutable locals of `build_pkg` (lines 100-103). -/
structure BuildState where
  pkgname : Option Bytes
  pkgver : Option Bytes
  arch : Option Bytes
  metadata : List (Entry × Metadata)
deriving DecidableEq, Repr

def initState : BuildState := ⟨none, none, none, []⟩

def mdLookup : List (Entry × Metadata) → Entry → Option Metadata
  | [], _ => none
  | (k, m) :: r, e => if k = e then some m else mdLookup r e

/-- Replace the binding of a present key in place (the `Occupied` arm's
in-place mutation). -/
def mdSet : List (Entry × Metadata) → Entry → Metadata → List (Entry × Metadata)
  | [], e, m => [(e, m)]
  | (k, m0) :: r, e, m => if k = e then (e, m) :: r else (k, m0) :: mdSet r e m

/-- One iteration of the token loop of `build_pkg` (lines 105-126).  The
`Occupied` arm pushes onto a `List` value and hits `panic!` on any other
value; the `Vacant` arm inserts `(key, v).into()`. -/
def stepToken (st : BuildState) (t : Token) : Except BuildError BuildState :=
  match t with
  | .Comment => .ok st
  | .Name v => .ok { st with pkgname := some v }
  | .Version v => .ok { st with pkgver := some v }
  | .Arch v => .ok { st with arch := some v }
  | .Metadata e v =>
    match mdLookup st.metadata e with
    | some (.List l) => .ok { st with metadata := mdSet st.metadata e (.List (l ++ [v])) }
    | some _ => .error .duplicateScalar
    | none =>
      match metadataOf e v with
      | .ok m => .ok { st with metadata := st.metadata ++ [(e, m)] }
      | .error err => .error err

def runTokens (st : BuildState) : List Token → Except BuildError BuildState
  | [] => .ok st
  | t :: r =>
    match stepToken st t with
    | .ok st2 => runTokens st2 r
    | .error e => .error e

/-- The source's `build_pkg` (lines 98-138): fold the tokens, then produce
a `Package` only when both name and version were observed (arch defaults to
empty). -/
def build_pkg (toks : List Token) : Except BuildError (Option Package) :=
  match runTokens initState toks with
  | .error e => .error e
  | .ok st =>
    .ok (match st.pkgname, st.pkgver with
      | some n, some v => some ⟨n, v, st.arch.getD [], st.metadata⟩
      | _, _ => none)

/-- The source's `parse_pkginfo` (lines 140-146): tokenize, then assemble
inside the `Done` arm.  A fatal assembly outcome (the `panic!` or the
modelled numeric failure) surfaces on the `Except` layer. -/
def parse_pkginfo (i : Bytes) : Except BuildError (IResult (Option Package)) :=
  match pkginfo i with
  | .done rest toks =>
    match build_pkg toks with
    | .ok p => .ok (.done rest p)
    | .error e => .error e
  | .incomplete => .ok .incomplete
  | .error => .ok .error

/-- The first byte of `r` (if any) fails the class `p`. -/
def headNot (p : Nat → Bool) : Bytes → Prop
  | [] => True
  | c :: _ => p c = false

/-- Neither byte string is a prefix of the other (so `tag!` distinguishes
them at every input). -/
def nonpref (t k : Bytes) : Prop := ¬ t <+: k ∧ ¬ k <+: t

instance (t k : Bytes) : Decidable (nonpref t k) := by
  unfold nonpref
  infer_instance

def ekey (j : Fin entryKeyList.length) : Bytes := (entryKeyList.get j).1

def eent (j : Fin entryKeyList.length) : Entry := (entryKeyList.get j).2

/-- A nonempty run of horizontal whitespace. -/
def SpRun (s : Bytes) : Prop := s ≠ [] ∧ ∀ c ∈ s, isSpaceByte c = true

/-- A value text as the grammar produces it: no line feed, decodable, and
not starting with horizontal whitespace (maximal-munch of the separator
makes a leading space part of the separator instead). -/
def ValOk (v : Bytes) : Prop :=
  (10 : Nat) ∉ v ∧ isValidUtf8 v = true ∧ headNot isSpaceByte v

inductive SrcLine where
  | commentL (txt : Bytes)
  | nameL (s1 s2 v : Bytes)
  | versionL (s1 s2 v : Bytes)
  | archL (s1 s2 v : Bytes)
  | metaL (j : Fin entryKeyList.length) (s1 s2 v : Bytes)

/-- The line's bytes, without the terminating line feed. -/
def lineBody : SrcLine → Bytes
  | .commentL txt => 35 :: txt
  | .nameL s1 s2 v => bs "pkgname" ++ (s1 ++ (61 :: (s2 ++ v)))
  | .versionL s1 s2 v => bs "pkgver" ++ (s1 ++ (61 :: (s2 ++ v)))
  | .archL s1 s2 v => bs "arch" ++ (s1 ++ (61 :: (s2 ++ v)))
  | .metaL j s1 s2 v => ekey j ++ (s1 ++ (61 :: (s2 ++ v)))

/-- The token the tokenizer produces for the line. -/
def tokenOf : SrcLine → Token
  | .commentL _ => .Comment
  | .nameL _ _ v => .Name v
  | .versionL _ _ v => .Version v
  | .archL _ _ v => .Arch v
  | .metaL j _ _ v => .Metadata (eent j) v

/-- Well-formedness: comment text holds no line feed; name/version/arch
lines carry nonempty whitespace on both sides of the `=` (their separator
demands it); metadata lines carry nonempty whitespace before the `=` and
any (possibly empty) run after it; values satisfy `ValOk`. -/
def WfLine : SrcLine → Prop
  | .commentL txt => (10 : Nat) ∉ txt
  | .nameL s1 s2 v => SpRun s1 ∧ SpRun s2 ∧ ValOk v
  | .versionL s1 s2 v => SpRun s1 ∧ SpRun s2 ∧ ValOk v
  | .archL s1 s2 v => SpRun s1 ∧ SpRun s2 ∧ ValOk v
  | .metaL _ s1 s2 v => SpRun s1 ∧ (∀ c ∈ s2, isSpaceByte c = true) ∧ ValOk v

def renderLine (L : SrcLine) : Bytes := lineBody L ++ [10]

def renderLines : List SrcLine → Bytes
  | [] => []
  | L :: ls => renderLine L ++ renderLines ls

def hasName (toks : List Token) : Bool :=
  toks.any fun t => match t with | .Name _ => true | _ => false

def hasVersion (toks : List Token) : Bool :=
  toks.any fun t => match t with | .Version _ => true | _ => false

/-- The value texts carried by occurrences of key `k`, in file order. -/
def listValues (k : Entry) (toks : List Token) : List Bytes :=
  toks.filterMap fun t =>
    match t with
    | .Metadata e v => if e = k then some v else none
    | _ => none

/-- Text, Size and Timestamp kinds: a repeated key of such kind hits the
`panic!` branch. -/
def isScalarKind (e : Entry) : Bool :=
  match entryKind e with
  | .list => false
  | _ => true

/-- The stored value's tag agrees with the entry's fixed kind. -/
def tagMatches (e : Entry) (m : Metadata) : Bool :=
  match entryKind e, m with
  | .text, .Text _ => true
  | .size, .Size _ => true
  | .timestamp, .Timestamp _ => true
  | .list, .List _ => true
  | _, _ => false

/-- Numeric-kind occurrences carry parseable values. -/
def numOk (t : Token) : Bool :=
  match t with
  | .Metadata e v =>
    match entryKind e with
    | .size => (parseUnsigned v).isSome
    | .timestamp => (parseSigned v).isSome
    | _ => true
  | _ => true

def numericsOk (toks : List Token) : Bool := toks.all numOk

/-- Kind-correctness of a metadata map. -/
def mdWf (md : List (Entry × Metadata)) : Prop :=
  ∀ k m, mdLookup md k = some m → tagMatches k m = true

/-- How a key's accumulated list grows across a token fold: `none` means the
key is absent so far. -/
def extendList : Option (List Bytes) → List Bytes → Option (List Bytes)
  | none, [] => none
  | none, vs => some vs
  | some l, vs => some (l ++ vs)

instance {ε α : Type} [DecidableEq ε] [DecidableEq α] : DecidableEq (Except ε α) :=
  fun a b =>
    match a, b with
    | .ok x, .ok y =>
      if h : x = y then .isTrue (by rw [h]) else .isFalse (fun hh => h (by injection hh))
    | .error x, .error y =>
      if h : x = y then .isTrue (by rw [h]) else .isFalse (fun hh => h (by injection hh))
    | .ok _, .error _ => .isFalse (fun hh => Except.noConfusion hh)
    | .error _, .ok _ => .isFalse (fun hh => Except.noConfusion hh)

instance (p : Nat → Bool) : (r : Bytes) → Decidable (headNot p r)
  | [] => .isTrue trivial
  | c :: _ => inferInstanceAs (Decidable (p c = false))

instance (s : Bytes) : Decidable (SpRun s) := by
  unfold SpRun
  infer_instance

instance (v : Bytes) : Decidable (ValOk v) := by
  unfold ValOk
  infer_instance

instance : (L : SrcLine) → Decidable (WfLine L)
  | .commentL txt => inferInstanceAs (Decidable ((10 : Nat) ∉ txt))
  | .nameL s1 s2 v => inferInstanceAs (Decidable (SpRun s1 ∧ SpRun s2 ∧ ValOk v))
  | .versionL s1 s2 v => inferInstanceAs (Decidable (SpRun s1 ∧ SpRun s2 ∧ ValOk v))
  | .archL s1 s2 v => inferInstanceAs (Decidable (SpRun s1 ∧ SpRun s2 ∧ ValOk v))
  | .metaL _ s1 s2 v =>
    inferInstanceAs (Decidable (SpRun s1 ∧ (∀ c ∈ s2, isSpaceByte c = true) ∧ ValOk v))

/-!
Theorems: embedding checks replicating the source unit tests, supporting
lemmas, and the claim theorems with their witnesses and counterexamples.
-/

example : bs "a=" = [97, 61] := by decide

example : tag (bs "pkgname") (bs "pkg") = .incomplete := by decide

example : tag (bs "pkgname") (bs "pkgver = 1") = .error := by decide

example : space (bs "  =x") = .done (bs "=x") (bs "  ") := by decide

example : space (bs "=x") = .error := by decide

example : space [] = .done [] [] := by decide

example : value (bs "abc\ndef") = .done (bs "\ndef") (bs "abc") := by decide

example : value (bs "abc") = .incomplete := by decide

example : value (97 :: 255 :: [10]) = .error := by decide

example : isValidUtf8 [104, 195, 169, 108, 108, 111] = true := by decide

example : isValidUtf8 [104, 195] = false := by decide

example : isValidUtf8 [237, 160, 128] = false := by decide

example :
    parse_pkginfo (bs "pkgname = test-backup\npkgver = 1\narch = any\nbackup = etc/example/conf\n")
      = .ok (.done []
          (some ⟨bs "test-backup", bs "1", bs "any",
            [(Entry.Backups, Metadata.List [bs "etc/example/conf"])]⟩)) := by rfl

example :
    parse_pkginfo (bs "pkgname = test-invalid-entry\npkgver = 1\nbadentry = etc/example/conf\n")
      = .ok (.done (bs "badentry = etc/example/conf\n")
          (some ⟨bs "test-invalid-entry", bs "1", [], []⟩)) := by rfl

example :
    parse_pkginfo (bs "pkgname = unspecified-url\npkgver = 1\nurl =\n")
      = .ok (.done [] (some ⟨bs "unspecified-url", bs "1", [], [(Entry.Url, Metadata.Text [])]⟩)) := by rfl

example :
    parse_pkginfo (bs "pkgname = test-makepkgopts\npkgver = 1\nmakepkgopt = strip\nmakepkgopt = !debug\n")
      = .ok (.done [] (some ⟨bs "test-makepkgopts", bs "1", [],
          [(Entry.BuildOptions, Metadata.List [bs "strip", bs "!debug"])]⟩)) := by rfl

set_option maxRecDepth 10000 in
example :
    parse_pkginfo (bs "# Generated by makepkg 5.0.1\n# using fakeroot version 1.21\n# Sun Oct 30 16:09:47 UTC 2016\npkgname = repose-git\npkgver = 6.2.10.gbab93f3-1\npkgdesc = A archlinux repo building tool\nurl = http://github.com/vodik/repose\nbuilddate = 1477843787\npackager = Simon Gomizelj <simongmzlj@gmail.com>\nsize = 63488\narch = x86_64\nlicense = GPL\nconflict = repose\nprovides = repose\ndepend = pacman\ndepend = libarchive\ndepend = gnupg\nmakedepend = git\nmakedepend = ragel\n")
      = .ok (.done []
          (some ⟨bs "repose-git", bs "6.2.10.gbab93f3-1", bs "x86_64",
            [ (Entry.Description, Metadata.Text (bs "A archlinux repo building tool"))
            , (Entry.Url, Metadata.Text (bs "http://github.com/vodik/repose"))
            , (Entry.BuildDate, Metadata.Timestamp 1477843787)
            , (Entry.Packager, Metadata.Text (bs "Simon Gomizelj <simongmzlj@gmail.com>"))
            , (Entry.InstallSize, Metadata.Size 63488)
            , (Entry.License, Metadata.List [bs "GPL"])
            , (Entry.Conflicts, Metadata.List [bs "repose"])
            , (Entry.Provides, Metadata.List [bs "repose"])
            , (Entry.Depends, Metadata.List [bs "pacman", bs "libarchive", bs "gnupg"])
            , (Entry.MakeDepends, Metadata.List [bs "git", bs "ragel"])
            ]⟩)) := by rfl

theorem pbind_done {α β : Type} {p : Parser α} {i r : Bytes} {a : α} (f : α → Parser β)
    (h : p i = .done r a) : pbind p f i = f a r := by
  simp [pbind, h]

theorem pbind_err {α β : Type} {p : Parser α} {i : Bytes} (f : α → Parser β)
    (h : p i = .error) : pbind p f i = .error := by
  simp [pbind, h]

theorem pbind_inc {α β : Type} {p : Parser α} {i : Bytes} (f : α → Parser β)
    (h : p i = .incomplete) : pbind p f i = .incomplete := by
  simp [pbind, h]

theorem palt_done {α : Type} {p q : Parser α} {i r : Bytes} {a : α}
    (h : p i = .done r a) : palt p q i = .done r a := by
  simp [palt, h]

theorem palt_err {α : Type} {p q : Parser α} {i : Bytes}
    (h : p i = .error) : palt p q i = q i := by
  simp [palt, h]

theorem palt_inc {α : Type} {p q : Parser α} {i : Bytes}
    (h : p i = .incomplete) : palt p q i = .incomplete := by
  simp [palt, h]

theorem popt_done {α : Type} {p : Parser α} {i r : Bytes} {a : α}
    (h : p i = .done r a) : popt p i = .done r (some a) := by
  simp [popt, h]

theorem popt_err {α : Type} {p : Parser α} {i : Bytes}
    (h : p i = .error) : popt p i = .done i none := by
  simp [popt, h]

theorem tag_done (t r : Bytes) : tag t (t ++ r) = .done r t := by
  have h1 : ¬ (t ++ r).length < t.length := by
    simp [List.length_append]
  simp [tag, h1, List.take_left, List.drop_left]

theorem tag_of_isPre {t i : Bytes} (h : t <+: i) :
    tag t i = .done (i.drop t.length) t := by
  have hl : t.length ≤ i.length := h.length_le
  have ht : i.take t.length = t := (List.prefix_iff_eq_take.mp h).symm
  simp [tag, ht]
  omega

theorem tag_error {t i : Bytes} (h1 : ¬ t <+: i) (h2 : ¬ i <+: t) :
    tag t i = .error := by
  by_cases hl : i.length < t.length
  · have : ¬ i = t.take i.length := by
      intro he
      exact h2 (List.prefix_iff_eq_take.mpr he)
    simp [tag, hl, this]
  · have : ¬ i.take t.length = t := by
      intro he
      exact h1 (List.prefix_iff_eq_take.mpr he.symm)
    simp [tag, hl, this]

theorem tag_incomplete {t i : Bytes} (h1 : i <+: t) (h2 : i ≠ t) :
    tag t i = .incomplete := by
  have hl : i.length < t.length := by
    rcases lt_or_eq_of_le h1.length_le with h | h
    · exact h
    · exact absurd (h1.eq_of_length h) h2
  have ht : i = t.take i.length := List.prefix_iff_eq_take.mp h1
  simp [tag, hl, ← ht]

theorem tag_not_done {t i : Bytes} (h : ¬ t <+: i) :
    tag t i = .error ∨ tag t i = .incomplete := by
  by_cases hp : i <+: t
  · by_cases he : i = t
    · subst he
      exact absurd (List.prefix_refl i) h
    · exact Or.inr (tag_incomplete hp he)
  · exact Or.inl (tag_error h hp)

theorem pre_append_cases {t k r : Bytes} (h : t <+: k ++ r) : t <+: k ∨ k <+: t := by
  rcases le_or_lt t.length k.length with hl | hl
  · left
    have : (k ++ r).take t.length = k.take t.length := by
      rw [List.take_append_eq_append_take]
      simp [Nat.sub_eq_zero_of_le hl]
    have ht := List.prefix_iff_eq_take.mp h
    rw [this] at ht
    exact ht ▸ List.take_prefix _ _
  · right
    have h2 : k <+: k ++ r := List.prefix_append k r
    have ht := List.prefix_iff_eq_take.mp h2
    have ht2 := List.prefix_iff_eq_take.mp h
    have hcalc : t.take k.length = k := by
      calc t.take k.length = ((k ++ r).take t.length).take k.length := by rw [← ht2]
        _ = (k ++ r).take (min k.length t.length) := List.take_take _ _ _
        _ = (k ++ r).take k.length := by
              congr 1
              omega
        _ = k := ht.symm
    exact List.prefix_iff_eq_take.mpr hcalc.symm

theorem tag_error_append {t k : Bytes} (r : Bytes) (h1 : ¬ t <+: k) (h2 : ¬ k <+: t) :
    tag t (k ++ r) = .error := by
  apply tag_error
  · intro h
    rcases pre_append_cases h with h | h
    · exact h1 h
    · exact h2 h
  · intro h
    exact h2 ((List.prefix_append k r).trans h)

theorem tag_one {c d : Nat} (r : Bytes) (h : d ≠ c) : tag [c] (d :: r) = .error := by
  simp [tag, h]

theorem run_split {p : Nat → Bool} (s r : Bytes)
    (hs : ∀ c ∈ s, p c = true) (hr : headNot p r) :
    (s ++ r).takeWhile p = s ∧ (s ++ r).dropWhile p = r := by
  induction s with
  | nil =>
    simp only [List.nil_append]
    cases r with
    | nil => simp
    | cons c cs =>
      simp only [headNot] at hr
      simp [List.takeWhile, List.dropWhile, hr]
  | cons c cs ih =>
    have hc : p c = true := hs c (by simp)
    have ih2 := ih (fun d hd => hs d (by simp [hd]))
    simp [List.takeWhile, List.dropWhile, hc, ih2.1, ih2.2]

theorem space_run {s : Bytes} (r : Bytes) (hne : s ≠ [])
    (hs : ∀ c ∈ s, isSpaceByte c = true) (hr : headNot isSpaceByte r) :
    space (s ++ r) = .done r s := by
  cases s with
  | nil => exact absurd rfl hne
  | cons c cs =>
    have hc : isSpaceByte c = true := hs c (by simp)
    have hsplit := run_split (c :: cs) r hs hr
    simp only [List.cons_append] at hsplit ⊢
    simp [space, hc, hsplit.1, hsplit.2]

theorem space_all {s : Bytes} (hs : ∀ c ∈ s, isSpaceByte c = true) :
    space s = .done [] s := by
  cases s with
  | nil => rfl
  | cons c cs =>
    have := space_run (s := c :: cs) [] (by simp) hs trivial
    simpa using this

theorem space_err {c : Nat} (r : Bytes) (h : isSpaceByte c = false) :
    space (c :: r) = .error := by
  simp [space, h]

theorem multispace_run {s : Bytes} (r : Bytes) (hne : s ≠ [])
    (hs : ∀ c ∈ s, isMsByte c = true) (hr : headNot isMsByte r) :
    multispace (s ++ r) = .done r s := by
  cases s with
  | nil => exact absurd rfl hne
  | cons c cs =>
    have hc : isMsByte c = true := hs c (by simp)
    have hsplit := run_split (c :: cs) r hs hr
    simp only [List.cons_append] at hsplit ⊢
    simp [multispace, hc, hsplit.1, hsplit.2]

theorem takeUntilNl_app {v : Bytes} (r : Bytes) (h : (10 : Nat) ∉ v) :
    takeUntilNl (v ++ 10 :: r) = .done (10 :: r) v := by
  induction v with
  | nil => simp [takeUntilNl]
  | cons c cs ih =>
    have hc : c ≠ 10 := by
      intro he
      exact h (by simp [he])
    have ih2 := ih (fun hm => h (by simp [hm]))
    simp [takeUntilNl, hc, ih2]

theorem takeUntilNl_inc {i : Bytes} (h : (10 : Nat) ∉ i) :
    takeUntilNl i = .incomplete := by
  induction i with
  | nil => rfl
  | cons c cs ih =>
    have hc : c ≠ 10 := by
      intro he
      exact h (by simp [he])
    have ih2 := ih (fun hm => h (by simp [hm]))
    simp [takeUntilNl, hc, ih2]

theorem value_app {v : Bytes} (r : Bytes) (h : (10 : Nat) ∉ v)
    (hu : isValidUtf8 v = true) : value (v ++ 10 :: r) = .done (10 :: r) v := by
  simp [value, takeUntilNl_app r h, hu]

theorem value_app_bad {v : Bytes} (r : Bytes) (h : (10 : Nat) ∉ v)
    (hu : isValidUtf8 v = false) : value (v ++ 10 :: r) = .error := by
  simp [value, takeUntilNl_app r h, hu]

theorem value_inc {i : Bytes} (h : (10 : Nat) ∉ i) : value i = .incomplete := by
  simp [value, takeUntilNl_inc h]

theorem keysPairwise :
    ∀ m j : Fin entryKeyList.length, m.val < j.val → nonpref (ekey m) (ekey j) := by
  decide

theorem keysOuter :
    ∀ j : Fin entryKeyList.length,
      nonpref [35] (ekey j) ∧ nonpref (bs "pkgname") (ekey j) ∧
      nonpref (bs "pkgver") (ekey j) ∧ nonpref (bs "arch") (ekey j) := by
  decide

theorem keysHead :
    ∀ j : Fin entryKeyList.length, ekey j ≠ [] ∧ isMsByte (ekey j).headI = false := by
  decide

theorem keyAlt_cons (p : Bytes × Entry) (l : List (Bytes × Entry)) :
    keyAlt (p :: l) = palt (pbind (tag p.1) (fun _ => pret p.2)) (keyAlt l) := rfl

theorem keyAlt_done_aux (l : List (Bytes × Entry)) (j : Nat) (hj : j < l.length)
    (r : Bytes)
    (hpre : ∀ m (hm : m < j), nonpref (l.get ⟨m, Nat.lt_trans hm hj⟩).1 (l.get ⟨j, hj⟩).1) :
    keyAlt l ((l.get ⟨j, hj⟩).1 ++ r) = .done r (l.get ⟨j, hj⟩).2 := by
  induction l generalizing j with
  | nil => exact absurd hj (Nat.not_lt_zero j)
  | cons hd tl ih =>
    cases j with
    | zero =>
      rw [keyAlt_cons]
      exact palt_done (pbind_done _ (tag_done hd.1 r) ▸ rfl)
    | succ m =>
      have hm : m < tl.length := Nat.lt_of_succ_lt_succ hj
      have hget : (hd :: tl).get ⟨m + 1, hj⟩ = tl.get ⟨m, hm⟩ := rfl
      have hnp : nonpref hd.1 ((hd :: tl).get ⟨m + 1, hj⟩).1 :=
        hpre 0 (Nat.succ_pos m)
      have herr : tag hd.1 (((hd :: tl).get ⟨m + 1, hj⟩).1 ++ r) = .error :=
        tag_error_append r hnp.1 hnp.2
      rw [keyAlt_cons]
      rw [palt_err (pbind_err _ herr)]
      rw [hget]
      exact ih m hm (fun m2 hm2 => hpre (m2 + 1) (Nat.succ_lt_succ hm2))

theorem keyAlt_inc (l : List (Bytes × Entry)) (p : Bytes)
    (hall : ∀ q ∈ l, ¬ q.1 <+: p)
    (hex : ∃ q ∈ l, p <+: q.1 ∧ p ≠ q.1) :
    keyAlt l p = .incomplete := by
  induction l with
  | nil => simp at hex
  | cons hd tl ih =>
    rcases tag_not_done (hall hd (by simp)) with herr | hinc
    · rw [keyAlt_cons, palt_err (pbind_err _ herr)]
      apply ih (fun q hq => hall q (by simp [hq]))
      rcases hex with ⟨q, hq, hpq, hne2⟩
      rcases List.mem_cons.mp hq with he | hm
      · subst he
        rw [tag_incomplete hpq hne2] at herr
        cases herr
      · exact ⟨q, hm, hpq, hne2⟩
    · rw [keyAlt_cons, palt_inc (pbind_inc _ hinc)]

theorem headNot_cons {p : Nat → Bool} {c : Nat} (x : Bytes) (h : p c = false) :
    headNot p (c :: x) := h

theorem headNot_app_nl {v : Bytes} (r : Bytes) (hv : headNot isSpaceByte v) :
    headNot isSpaceByte (v ++ 10 :: r) := by
  cases v with
  | nil => exact headNot_cons _ (by decide)
  | cons c cs => exact hv

theorem popt_space_run {s2 : Bytes} (rest : Bytes)
    (hs2 : ∀ c ∈ s2, isSpaceByte c = true) (hrest : headNot isSpaceByte rest) :
    ∃ o, popt space (s2 ++ rest) = .done rest o := by
  cases s2 with
  | nil =>
    cases rest with
    | nil => exact ⟨some [], rfl⟩
    | cons c cs =>
      exact ⟨none, popt_err (space_err cs hrest)⟩
  | cons c cs =>
    exact ⟨some (c :: cs), popt_done (space_run rest (by simp) hs2 hrest)⟩

theorem seperator_run {s1 s2 : Bytes} (rest : Bytes)
    (hs1 : SpRun s1) (hs2 : SpRun s2) (hrest : headNot isSpaceByte rest) :
    seperator (s1 ++ (61 :: (s2 ++ rest))) = .done rest () := by
  unfold seperator
  rw [pbind_done _ (space_run _ hs1.1 hs1.2 (headNot_cons _ (by decide)))]
  have h61 : (61 : Nat) :: (s2 ++ rest) = [61] ++ (s2 ++ rest) := rfl
  rw [h61, pbind_done _ (tag_done [61] _)]
  rw [pbind_done _ (space_run rest hs2.1 hs2.2 hrest)]
  rfl

theorem keyValP_done {k : Bytes} (f : Bytes → Token) (s1 s2 v r : Bytes)
    (hs1 : SpRun s1) (hs2 : SpRun s2) (hv : ValOk v) :
    keyValP k f (k ++ (s1 ++ (61 :: (s2 ++ (v ++ 10 :: r))))) = .done (10 :: r) (f v) := by
  unfold keyValP
  rw [pbind_done _ (tag_done k _)]
  rw [pbind_done _ (seperator_run (v ++ 10 :: r) hs1 hs2 (headNot_app_nl r hv.2.2))]
  rw [pbind_done _ (value_app r hv.1 hv.2.1)]
  rfl

theorem keyValP_err {k : Bytes} (f : Bytes → Token) {i : Bytes}
    (h : tag k i = .error) : keyValP k f i = .error :=
  pbind_err _ h

theorem comment_done (txt r : Bytes) (h : (10 : Nat) ∉ txt) :
    comment (35 :: (txt ++ 10 :: r)) = .done (10 :: r) Token.Comment := by
  unfold comment
  have h35 : (35 : Nat) :: (txt ++ 10 :: r) = [35] ++ (txt ++ 10 :: r) := rfl
  rw [h35, pbind_done _ (tag_done [35] _)]
  rw [pbind_done _ (takeUntilNl_app r h)]
  rfl

theorem comment_err {i : Bytes} (h : tag [35] i = .error) : comment i = .error :=
  pbind_err _ h

theorem keyAlt_entry_done (j : Fin entryKeyList.length) (r : Bytes) :
    keyAlt entryKeyList (ekey j ++ r) = .done r (eent j) := by
  have h := keyAlt_done_aux entryKeyList j.1 j.2 r
    (fun m hm => keysPairwise ⟨m, Nat.lt_trans hm j.2⟩ j hm)
  exact h

theorem metadata_done (j : Fin entryKeyList.length) (s1 s2 v r : Bytes)
    (hs1 : SpRun s1) (hs2 : ∀ c ∈ s2, isSpaceByte c = true) (hv : ValOk v) :
    metadata (ekey j ++ (s1 ++ (61 :: (s2 ++ (v ++ 10 :: r)))))
      = .done (10 :: r) (.Metadata (eent j) v) := by
  unfold metadata
  rw [pbind_done _ (keyAlt_entry_done j _)]
  rw [pbind_done _ (space_run _ hs1.1 hs1.2 (headNot_cons _ (by decide)))]
  have h61 : (61 : Nat) :: (s2 ++ (v ++ 10 :: r)) = [61] ++ (s2 ++ (v ++ 10 :: r)) := rfl
  rw [h61, pbind_done _ (tag_done [61] _)]
  obtain ⟨o, ho⟩ := popt_space_run (v ++ 10 :: r) hs2 (headNot_app_nl r hv.2.2)
  rw [pbind_done _ ho]
  rw [pbind_done _ (value_app r hv.1 hv.2.1)]
  rfl

theorem lineAlt_done (L : SrcLine) (r : Bytes) (hwf : WfLine L) :
    lineAlt (lineBody L ++ 10 :: r) = .done (10 :: r) (tokenOf L) := by
  cases L with
  | commentL txt =>
    unfold lineAlt
    simp only [lineBody, List.cons_append]
    exact palt_done (comment_done txt r hwf)
  | nameL s1 s2 v =>
    unfold lineAlt
    simp only [lineBody, List.append_assoc, List.cons_append]
    have hnp : nonpref [35] (bs "pkgname") := by decide
    rw [palt_err (comment_err (tag_error_append _ hnp.1 hnp.2))]
    exact palt_done (keyValP_done Token.Name s1 s2 v r hwf.1 hwf.2.1 hwf.2.2)
  | versionL s1 s2 v =>
    unfold lineAlt
    simp only [lineBody, List.append_assoc, List.cons_append]
    have hnp : nonpref [35] (bs "pkgver") := by decide
    have hnp2 : nonpref (bs "pkgname") (bs "pkgver") := by decide
    rw [palt_err (comment_err (tag_error_append _ hnp.1 hnp.2))]
    have h2 : pkgname (bs "pkgver" ++ (s1 ++ (61 :: (s2 ++ (v ++ 10 :: r))))) = .error :=
      keyValP_err Token.Name (tag_error_append _ hnp2.1 hnp2.2)
    rw [palt_err h2]
    exact palt_done (keyValP_done Token.Version s1 s2 v r hwf.1 hwf.2.1 hwf.2.2)
  | archL s1 s2 v =>
    unfold lineAlt
    simp only [lineBody, List.append_assoc, List.cons_append]
    have hnp : nonpref [35] (bs "arch") := by decide
    have hnp2 : nonpref (bs "pkgname") (bs "arch") := by decide
    have hnp3 : nonpref (bs "pkgver") (bs "arch") := by decide
    rw [palt_err (comment_err (tag_error_append _ hnp.1 hnp.2))]
    have h2 : pkgname (bs "arch" ++ (s1 ++ (61 :: (s2 ++ (v ++ 10 :: r))))) = .error :=
      keyValP_err Token.Name (tag_error_append _ hnp2.1 hnp2.2)
    have h3 : pkgver (bs "arch" ++ (s1 ++ (61 :: (s2 ++ (v ++ 10 :: r))))) = .error :=
      keyValP_err Token.Version (tag_error_append _ hnp3.1 hnp3.2)
    rw [palt_err h2, palt_err h3]
    exact palt_done (keyValP_done Token.Arch s1 s2 v r hwf.1 hwf.2.1 hwf.2.2)
  | metaL j s1 s2 v =>
    unfold lineAlt
    simp only [lineBody, List.append_assoc, List.cons_append]
    obtain ⟨hc, hn, hv, ha⟩ := keysOuter j
    rw [palt_err (comment_err (tag_error_append _ hc.1 hc.2))]
    have h2 : pkgname (ekey j ++ (s1 ++ (61 :: (s2 ++ (v ++ 10 :: r))))) = .error :=
      keyValP_err Token.Name (tag_error_append _ hn.1 hn.2)
    have h3 : pkgver (ekey j ++ (s1 ++ (61 :: (s2 ++ (v ++ 10 :: r))))) = .error :=
      keyValP_err Token.Version (tag_error_append _ hv.1 hv.2)
    have h4 : arch (ekey j ++ (s1 ++ (61 :: (s2 ++ (v ++ 10 :: r))))) = .error :=
      keyValP_err Token.Arch (tag_error_append _ ha.1 ha.2)
    rw [palt_err h2, palt_err h3, palt_err h4]
    exact metadata_done j s1 s2 v r hwf.1 hwf.2.1 hwf.2.2

theorem lineStep_render (L : SrcLine) (rest : Bytes) (hwf : WfLine L)
    (hro : headNot isMsByte rest) :
    lineStep (renderLine L ++ rest) = .done rest (tokenOf L) := by
  unfold lineStep
  have hsh : renderLine L ++ rest = lineBody L ++ 10 :: rest := by
    simp [renderLine]
  rw [hsh]
  rw [pbind_done _ (lineAlt_done L rest hwf)]
  have hms : multispace (10 :: rest) = .done rest [10] := by
    have h := multispace_run (s := [10]) rest (by simp) (by decide) hro
    simpa using h
  rw [pbind_done _ (popt_done hms)]
  rfl

theorem lineBody_headNot (L : SrcLine) (rest : Bytes) :
    headNot isMsByte (lineBody L ++ rest) := by
  cases L with
  | commentL txt => exact headNot_cons _ (by decide)
  | nameL s1 s2 v =>
    have hk : bs "pkgname" = 112 :: bs "kgname" := by decide
    simp only [lineBody, hk, List.cons_append, List.append_assoc]
    exact headNot_cons _ (by decide)
  | versionL s1 s2 v =>
    have hk : bs "pkgver" = 112 :: bs "kgver" := by decide
    simp only [lineBody, hk, List.cons_append, List.append_assoc]
    exact headNot_cons _ (by decide)
  | archL s1 s2 v =>
    have hk : bs "arch" = 97 :: bs "rch" := by decide
    simp only [lineBody, hk, List.cons_append, List.append_assoc]
    exact headNot_cons _ (by decide)
  | metaL j s1 s2 v =>
    obtain ⟨hne, hh⟩ := keysHead j
    cases hek : ekey j with
    | nil => exact absurd hek hne
    | cons c t =>
      rw [hek] at hh
      simp only [List.headI] at hh
      simp only [lineBody, hek, List.cons_append, List.append_assoc]
      exact headNot_cons _ hh

theorem many0F_stop {α : Type} (p : Parser α) (f : Nat) {i : Bytes} (hi : i ≠ [])
    (h : p i = .error) : many0F p (f + 1) i = .done i [] := by
  simp [many0F, hi, h]

theorem many0F_inc {α : Type} (p : Parser α) (f : Nat) {i : Bytes} (hi : i ≠ [])
    (h : p i = .incomplete) : many0F p (f + 1) i = .incomplete := by
  simp [many0F, hi, h]

theorem many0F_cons {α : Type} (p : Parser α) (f : Nat) {i i2 : Bytes} {o : α}
    (hi : i ≠ []) (h : p i = .done i2 o) :
    many0F p (f + 1) i =
      match many0F p f i2 with
      | .done r os => .done r (o :: os)
      | .incomplete => .incomplete
      | .error => .error := by
  simp [many0F, hi, h]

theorem many0F_render (ls : List SrcLine) (fuel : Nat) (rest : Bytes)
    (hwf : ∀ L ∈ ls, WfLine L) (hne : rest ≠ []) (hro : headNot isMsByte rest)
    (hstop : lineAlt rest = .error ∨ lineAlt rest = .incomplete)
    (hfuel : (renderLines ls).length + 1 ≤ fuel) :
    many0F lineStep fuel (renderLines ls ++ rest) =
      match lineAlt rest with
      | .error => .done rest (ls.map tokenOf)
      | _ => .incomplete := by
  induction ls generalizing fuel with
  | nil =>
    cases fuel with
    | zero => omega
    | succ f =>
      simp only [renderLines, List.nil_append]
      rcases hstop with h | h
      · rw [many0F_stop lineStep f hne (pbind_err _ h), h]
        rfl
      · rw [many0F_inc lineStep f hne (pbind_inc _ h), h]
  | cons L ls ih =>
    have hwfL : WfLine L := hwf L (by simp)
    cases fuel with
    | zero => omega
    | succ f =>
      have hbody : renderLines (L :: ls) ++ rest = renderLine L ++ (renderLines ls ++ rest) := by
        simp [renderLines, List.append_assoc]
      have hro2 : headNot isMsByte (renderLines ls ++ rest) := by
        cases ls with
        | nil => simpa [renderLines] using hro
        | cons L2 ls2 =>
          simp only [renderLines, renderLine, List.append_assoc]
          exact lineBody_headNot L2 _
      have hin : renderLine L ++ (renderLines ls ++ rest) ≠ [] := by
        apply List.ne_nil_of_length_pos
        simp [renderLine]
      have hstep : lineStep (renderLine L ++ (renderLines ls ++ rest))
          = .done (renderLines ls ++ rest) (tokenOf L) :=
        lineStep_render L _ hwfL hro2
      have hfe : (renderLines ls).length + 1 ≤ f := by
        have hlen : (renderLines (L :: ls)).length
            = (renderLine L).length + (renderLines ls).length := by
          simp [renderLines]
        have hL : 0 < (renderLine L).length := by simp [renderLine]
        omega
      rw [hbody, many0F_cons lineStep f hin hstep]
      rw [ih f (fun L2 h2 => hwf L2 (List.mem_cons_of_mem L h2)) hfe]
      rcases hstop with h | h <;> simp [h]

theorem pkginfo_render_stop (ls : List SrcLine) (rest : Bytes)
    (hwf : ∀ L ∈ ls, WfLine L) (hne : rest ≠ []) (hro : headNot isMsByte rest)
    (hstop : lineAlt rest = .error) :
    pkginfo (renderLines ls ++ rest) = .done rest (ls.map tokenOf) := by
  have h := many0F_render ls ((renderLines ls ++ rest).length + 1) rest hwf hne hro
    (Or.inl hstop) (by simp [List.length_append])
  simp only [hstop] at h
  exact h

theorem pkginfo_render_inc (ls : List SrcLine) (rest : Bytes)
    (hwf : ∀ L ∈ ls, WfLine L) (hne : rest ≠ []) (hro : headNot isMsByte rest)
    (hstop : lineAlt rest = .incomplete) :
    pkginfo (renderLines ls ++ rest) = .incomplete := by
  have h := many0F_render ls ((renderLines ls ++ rest).length + 1) rest hwf hne hro
    (Or.inr hstop) (by simp [List.length_append])
  simp only [hstop] at h
  exact h

theorem tag_nil_inc {t : Bytes} (h : t ≠ []) : tag t [] = .incomplete := by
  have hl : 0 < t.length := List.length_pos.mpr h
  simp [tag, hl]

theorem pre_split {q a b : Bytes} (h : q <+: a ++ b) :
    q <+: a ∨ ∃ r, q = a ++ r ∧ r <+: b := by
  rcases le_or_lt q.length a.length with hl | hl
  · left
    have ht := List.prefix_iff_eq_take.mp h
    have : (a ++ b).take q.length = a.take q.length := by
      rw [List.take_append_eq_append_take]
      simp [Nat.sub_eq_zero_of_le hl]
    rw [this] at ht
    exact ht ▸ List.take_prefix _ _
  · right
    have ha : a <+: q := by
      have ht := List.prefix_iff_eq_take.mp h
      have h2 : a = (a ++ b).take a.length := by simp [List.take_left]
      have h3 : q.take a.length = a := by
        calc q.take a.length = ((a ++ b).take q.length).take a.length := by rw [← ht]
          _ = (a ++ b).take (min a.length q.length) := List.take_take _ _ _
          _ = (a ++ b).take a.length := by
                congr 1
                omega
          _ = a := by simp [List.take_left]
      exact List.prefix_iff_eq_take.mpr h3.symm
    rcases ha with ⟨r, hr⟩
    refine ⟨r, hr.symm, ?_⟩
    rcases h with ⟨s, hs⟩
    rw [← hr, List.append_assoc] at hs
    have := List.append_cancel_left hs
    exact ⟨s, this⟩

theorem pre_cons {q : Bytes} {c : Nat} {x : Bytes} (h : q <+: c :: x) :
    q = [] ∨ ∃ r, q = c :: r ∧ r <+: x := by
  cases q with
  | nil => exact Or.inl rfl
  | cons d t =>
    have h2 := List.cons_prefix_cons.mp h
    exact Or.inr ⟨t, by rw [h2.1], h2.2⟩

theorem keysPairwiseNe :
    ∀ m j : Fin entryKeyList.length, m ≠ j → ¬ ekey m <+: ekey j := by
  decide

/-- The `space >> tag!("=") >> space` separator on any prefix of a
well-formed separator-and-value region: either incomplete, or done with a
prefix of the value left over. -/
theorem seperator_pre {q s1 s2 v : Bytes} (hs1 : SpRun s1) (hs2 : SpRun s2)
    (hv : ValOk v) (hq : q <+: s1 ++ (61 :: (s2 ++ v))) :
    seperator q = .incomplete ∨ ∃ q3, seperator q = .done q3 () ∧ q3 <+: v := by
  have hsp_of : ∀ x : Bytes, x <+: s1 → ∀ c ∈ x, isSpaceByte c = true :=
    fun x hx c hc => hs1.2 c (hx.subset hc)
  have hsp2_of : ∀ x : Bytes, x <+: s2 → ∀ c ∈ x, isSpaceByte c = true :=
    fun x hx c hc => hs2.2 c (hx.subset hc)
  rcases pre_split hq with hqa | ⟨q2, hq2, hq2b⟩
  · left
    unfold seperator
    rw [pbind_done _ (space_all (hsp_of q hqa))]
    exact pbind_inc _ (tag_nil_inc (by decide))
  · rcases pre_cons hq2b with h0 | ⟨q3, hq3, hq3b⟩
    · left
      subst h0
      rw [List.append_nil] at hq2
      subst hq2
      unfold seperator
      rw [pbind_done _ (space_all hs1.2)]
      exact pbind_inc _ (tag_nil_inc (by decide))
    · subst hq3
      subst hq2
      have hcommon : ∀ x : Bytes,
          seperator (s1 ++ 61 :: x) = pbind space (fun _ => pret ()) x := by
        intro x
        unfold seperator
        rw [pbind_done _ (space_run _ hs1.1 hs1.2 (headNot_cons _ (by decide)))]
        have h61 : (61 : Nat) :: x = [61] ++ x := rfl
        rw [h61, pbind_done _ (tag_done [61] _)]
      rcases pre_split hq3b with hqa3 | ⟨q4, hq4, hq4b⟩
      · right
        refine ⟨[], ?_, List.nil_prefix⟩
        rw [hcommon q3, pbind_done _ (space_all (hsp2_of q3 hqa3))]
        rfl
      · subst hq4
        cases q4 with
        | nil =>
          right
          refine ⟨[], ?_, List.nil_prefix⟩
          rw [List.append_nil, hcommon s2, pbind_done _ (space_all hs2.2)]
          rfl
        | cons c q5 =>
          right
          refine ⟨c :: q5, ?_, hq4b⟩
          have hch : isSpaceByte c = false := by
            cases v with
            | nil => exact absurd hq4b (by simp)
            | cons d vs =>
              have h2 := List.cons_prefix_cons.mp hq4b
              rw [h2.1]
              exact hv.2.2
          have hrun : space (s2 ++ c :: q5) = .done (c :: q5) s2 :=
            space_run _ hs2.1 hs2.2 (headNot_cons _ hch)
          rw [hcommon (s2 ++ c :: q5), pbind_done _ hrun]
          rfl

theorem keyValP_pre_inc {k : Bytes} (f : Bytes → Token) {q s1 s2 v : Bytes}
    (hs1 : SpRun s1) (hs2 : SpRun s2) (hv : ValOk v)
    (hq : q <+: s1 ++ (61 :: (s2 ++ v))) :
    keyValP k f (k ++ q) = .incomplete := by
  unfold keyValP
  rw [pbind_done _ (tag_done k q)]
  rcases seperator_pre hs1 hs2 hv hq with h | ⟨q3, hsep, hq3⟩
  · exact pbind_inc _ h
  · rw [pbind_done _ hsep]
    have h10 : (10 : Nat) ∉ q3 := fun hm => hv.1 (hq3.subset hm)
    exact pbind_inc _ (value_inc h10)

theorem metadata_pre_inc (j : Fin entryKeyList.length) {q s1 s2 v : Bytes}
    (hs1 : SpRun s1) (hs2 : ∀ c ∈ s2, isSpaceByte c = true) (hv : ValOk v)
    (hq : q <+: s1 ++ (61 :: (s2 ++ v))) :
    metadata (ekey j ++ q) = .incomplete := by
  unfold metadata
  rw [pbind_done _ (keyAlt_entry_done j q)]
  have hsp_of : ∀ x : Bytes, x <+: s1 → ∀ c ∈ x, isSpaceByte c = true :=
    fun x hx c hc => hs1.2 c (hx.subset hc)
  have hsp2_of : ∀ x : Bytes, x <+: s2 → ∀ c ∈ x, isSpaceByte c = true :=
    fun x hx c hc => hs2 c (hx.subset hc)
  rcases pre_split hq with hqa | ⟨q2, hq2, hq2b⟩
  · rw [pbind_done _ (space_all (hsp_of q hqa))]
    exact pbind_inc _ (tag_nil_inc (by decide))
  · rcases pre_cons hq2b with h0 | ⟨q3, hq3, hq3b⟩
    · subst h0
      rw [List.append_nil] at hq2
      subst hq2
      rw [pbind_done _ (space_all hs1.2)]
      exact pbind_inc _ (tag_nil_inc (by decide))
    · subst hq3
      subst hq2
      rw [pbind_done _ (space_run _ hs1.1 hs1.2 (headNot_cons _ (by decide)))]
      have h61 : (61 : Nat) :: q3 = [61] ++ q3 := rfl
      rw [h61, pbind_done _ (tag_done [61] _)]
      rcases pre_split hq3b with hqa3 | ⟨q4, hq4, hq4b⟩
      · rw [pbind_done _ (popt_done (space_all (hsp2_of q3 hqa3)))]
        exact pbind_inc _ (value_inc (by simp))
      · subst hq4
        have hq4h : headNot isSpaceByte q4 := by
          cases hq4c : q4 with
          | nil => trivial
          | cons c q5 =>
            rw [hq4c] at hq4b
            cases v with
            | nil => exact absurd hq4b (by simp)
            | cons d vs =>
              have h2 := List.cons_prefix_cons.mp hq4b
              exact headNot_cons _ (h2.1 ▸ hv.2.2)
        obtain ⟨o, ho⟩ := popt_space_run q4 hs2 hq4h
        rw [pbind_done _ ho]
        have h10 : (10 : Nat) ∉ q4 := fun hm => hv.1 (hq4b.subset hm)
        exact pbind_inc _ (value_inc h10)

theorem not_tag_pre {t K tail p : Bytes} (hnp : nonpref t K) (hp : p <+: K ++ tail) :
    ¬ t <+: p := by
  intro h
  rcases pre_append_cases (h.trans hp) with h2 | h2
  · exact hnp.1 h2
  · exact hnp.2 h2

theorem keyValP_own_inc {k : Bytes} (f : Bytes → Token) {p s1 s2 v : Bytes}
    (hs1 : SpRun s1) (hs2 : SpRun s2) (hv : ValOk v)
    (hp : p <+: k ++ (s1 ++ (61 :: (s2 ++ v)))) :
    keyValP k f p = .incomplete := by
  rcases pre_split hp with hpk | ⟨q, hq, hqb⟩
  · by_cases he : p = k
    · rw [he]
      have h : keyValP k f (k ++ []) = .incomplete :=
        keyValP_pre_inc f hs1 hs2 hv List.nil_prefix
      simpa using h
    · exact pbind_inc _ (tag_incomplete hpk he)
  · subst hq
    exact keyValP_pre_inc f hs1 hs2 hv hqb

theorem metadata_own_inc (j : Fin entryKeyList.length) {p s1 s2 v : Bytes}
    (hs1 : SpRun s1) (hs2 : ∀ c ∈ s2, isSpaceByte c = true) (hv : ValOk v)
    (hp : p <+: ekey j ++ (s1 ++ (61 :: (s2 ++ v)))) :
    metadata p = .incomplete := by
  rcases pre_split hp with hpk | ⟨q, hq, hqb⟩
  · by_cases he : p = ekey j
    · rw [he]
      have h : metadata (ekey j ++ []) = .incomplete :=
        metadata_pre_inc j hs1 hs2 hv List.nil_prefix
      simpa using h
    · have halt : keyAlt entryKeyList p = .incomplete := by
        apply keyAlt_inc
        · intro q2 hq2 hpre2
          rcases List.mem_iff_get.mp hq2 with ⟨m, hm⟩
          have hq21 : q2.1 = ekey m := by rw [← hm]; rfl
          rw [hq21] at hpre2
          by_cases hmj : m = j
          · subst hmj
            exact he (hpk.eq_of_length (Nat.le_antisymm hpk.length_le hpre2.length_le))
          · exact keysPairwiseNe m j hmj (hpre2.trans hpk)
        · exact ⟨entryKeyList.get j, List.get_mem _ _ _, hpk, he⟩
      exact pbind_inc _ halt
  · subst hq
    exact metadata_pre_inc j hs1 hs2 hv hqb

theorem lineAlt_pre (L : SrcLine) (p : Bytes) (hwf : WfLine L) (hne : p ≠ [])
    (hp : p <+: lineBody L) : lineAlt p = .incomplete := by
  cases L with
  | commentL txt =>
    simp only [lineBody] at hp
    rcases pre_cons hp with h0 | ⟨q, hq, hqb⟩
    · exact absurd h0 hne
    · subst hq
      have hc : comment (35 :: q) = .incomplete := by
        unfold comment
        have h35 : (35 : Nat) :: q = [35] ++ q := rfl
        rw [h35, pbind_done _ (tag_done [35] q)]
        exact pbind_inc _ (takeUntilNl_inc (fun hm => hwf (hqb.subset hm)))
      exact palt_inc hc
  | nameL s1 s2 v =>
    simp only [lineBody] at hp
    unfold lineAlt
    rcases tag_not_done (not_tag_pre (by decide : nonpref [35] (bs "pkgname")) hp)
      with he | hi
    · rw [palt_err (comment_err he)]
      exact palt_inc (keyValP_own_inc Token.Name hwf.1 hwf.2.1 hwf.2.2 hp)
    · exact palt_inc (pbind_inc _ hi)
  | versionL s1 s2 v =>
    simp only [lineBody] at hp
    unfold lineAlt
    rcases tag_not_done (not_tag_pre (by decide : nonpref [35] (bs "pkgver")) hp)
      with he | hi
    · rw [palt_err (comment_err he)]
      rcases tag_not_done
          (not_tag_pre (by decide : nonpref (bs "pkgname") (bs "pkgver")) hp)
        with he2 | hi2
      · rw [palt_err (show pkgname p = .error from keyValP_err Token.Name he2)]
        exact palt_inc (keyValP_own_inc Token.Version hwf.1 hwf.2.1 hwf.2.2 hp)
      · exact palt_inc (show pkgname p = .incomplete from pbind_inc _ hi2)
    · exact palt_inc (pbind_inc _ hi)
  | archL s1 s2 v =>
    simp only [lineBody] at hp
    unfold lineAlt
    rcases tag_not_done (not_tag_pre (by decide : nonpref [35] (bs "arch")) hp)
      with he | hi
    · rw [palt_err (comment_err he)]
      rcases tag_not_done
          (not_tag_pre (by decide : nonpref (bs "pkgname") (bs "arch")) hp)
        with he2 | hi2
      · rw [palt_err (show pkgname p = .error from keyValP_err Token.Name he2)]
        rcases tag_not_done
            (not_tag_pre (by decide : nonpref (bs "pkgver") (bs "arch")) hp)
          with he3 | hi3
        · rw [palt_err (show pkgver p = .error from keyValP_err Token.Version he3)]
          exact palt_inc (keyValP_own_inc Token.Arch hwf.1 hwf.2.1 hwf.2.2 hp)
        · exact palt_inc (show pkgver p = .incomplete from pbind_inc _ hi3)
      · exact palt_inc (show pkgname p = .incomplete from pbind_inc _ hi2)
    · exact palt_inc (pbind_inc _ hi)
  | metaL j s1 s2 v =>
    simp only [lineBody] at hp
    unfold lineAlt
    obtain ⟨hc, hn, hv2, ha⟩ := keysOuter j
    rcases tag_not_done (not_tag_pre hc hp) with he | hi
    · rw [palt_err (comment_err he)]
      rcases tag_not_done (not_tag_pre hn hp) with he2 | hi2
      · rw [palt_err (show pkgname p = .error from keyValP_err Token.Name he2)]
        rcases tag_not_done (not_tag_pre hv2 hp) with he3 | hi3
        · rw [palt_err (show pkgver p = .error from keyValP_err Token.Version he3)]
          rcases tag_not_done (not_tag_pre ha hp) with he4 | hi4
          · rw [palt_err (show arch p = .error from keyValP_err Token.Arch he4)]
            exact metadata_own_inc j hwf.1 hwf.2.1 hwf.2.2 hp
          · exact palt_inc (show arch p = .incomplete from pbind_inc _ hi4)
        · exact palt_inc (show pkgver p = .incomplete from pbind_inc _ hi3)
      · exact palt_inc (show pkgname p = .incomplete from pbind_inc _ hi2)
    · exact palt_inc (pbind_inc _ hi)

theorem headNot_of_pre {L : SrcLine} {p : Bytes} (hp : p <+: lineBody L) :
    headNot isMsByte p := by
  have hl : headNot isMsByte (lineBody L ++ []) := lineBody_headNot L []
  rw [List.append_nil] at hl
  cases p with
  | nil => trivial
  | cons c p2 =>
    cases hb : lineBody L with
    | nil =>
      rw [hb] at hp
      exact absurd hp (by simp)
    | cons d t =>
      rw [hb] at hp hl
      have h2 := List.cons_prefix_cons.mp hp
      exact headNot_cons _ (h2.1 ▸ hl)

/-- A buffer of well-formed lines followed by a nonempty proper piece of one
more well-formed line (cut before its line feed) tokenizes to `Incomplete`. -/
theorem pkginfo_render_pre (ls : List SrcLine) (L : SrcLine) (p : Bytes)
    (hwf : ∀ L2 ∈ ls, WfLine L2) (hwfL : WfLine L) (hne : p ≠ [])
    (hp : p <+: lineBody L) :
    pkginfo (renderLines ls ++ p) = .incomplete :=
  pkginfo_render_inc ls p hwf hne (headNot_of_pre hp) (lineAlt_pre L p hwfL hne hp)

theorem mdLookup_append_self {md : List (Entry × Metadata)} {e : Entry}
    (m : Metadata) (h : mdLookup md e = none) :
    mdLookup (md ++ [(e, m)]) e = some m := by
  induction md with
  | nil => simp [mdLookup]
  | cons p r ih =>
    by_cases hpe : p.1 = e
    · rw [show p = (p.1, p.2) from rfl, mdLookup, if_pos hpe] at h
      cases h
    · rw [show p = (p.1, p.2) from rfl] at h ⊢
      rw [mdLookup, if_neg hpe] at h
      rw [List.cons_append, mdLookup, if_neg hpe]
      exact ih h

theorem mdLookup_append_ne {md : List (Entry × Metadata)} {e k : Entry}
    (m : Metadata) (h : e ≠ k) :
    mdLookup (md ++ [(e, m)]) k = mdLookup md k := by
  induction md with
  | nil => simp [mdLookup, h]
  | cons p r ih =>
    rw [show p = (p.1, p.2) from rfl, List.cons_append, mdLookup, mdLookup]
    by_cases hpk : p.1 = k
    · simp [hpk]
    · simp [hpk, ih]

theorem mdLookup_set_self (md : List (Entry × Metadata)) (e : Entry) (m : Metadata) :
    mdLookup (mdSet md e m) e = some m := by
  induction md with
  | nil => simp [mdSet, mdLookup]
  | cons p r ih =>
    rw [show p = (p.1, p.2) from rfl, mdSet]
    by_cases hpe : p.1 = e
    · simp [hpe, mdLookup]
    · simp [hpe, mdLookup, ih]

theorem mdLookup_set_ne {md : List (Entry × Metadata)} {e k : Entry}
    (m : Metadata) (h : e ≠ k) :
    mdLookup (mdSet md e m) k = mdLookup md k := by
  induction md with
  | nil => simp [mdSet, mdLookup, h]
  | cons p r ih =>
    rw [show p = (p.1, p.2) from rfl, mdSet]
    by_cases hpe : p.1 = e
    · subst hpe
      simp [mdLookup, h]
    · simp [hpe, mdLookup, ih]

theorem metadataOf_kind {e : Entry} {v : Bytes} {m : Metadata}
    (h : metadataOf e v = .ok m) : tagMatches e m = true := by
  unfold metadataOf at h
  unfold tagMatches
  cases hk : entryKind e with
  | text =>
    rw [hk] at h
    cases h
    rfl
  | size =>
    rw [hk] at h
    cases hp : parseUnsigned v with
    | none => rw [hp] at h; cases h
    | some n => rw [hp] at h; cases h; rfl
  | timestamp =>
    rw [hk] at h
    cases hp : parseSigned v with
    | none => rw [hp] at h; cases h
    | some n => rw [hp] at h; cases h; rfl
  | list =>
    rw [hk] at h
    cases h
    rfl

theorem tagMatches_list {e : Entry} {m : Metadata} (hk : entryKind e = .list)
    (h : tagMatches e m = true) : ∃ l, m = .List l := by
  unfold tagMatches at h
  rw [hk] at h
  cases m with
  | List l => exact ⟨l, rfl⟩
  | Text v => cases h
  | Size n => cases h
  | Timestamp t => cases h

theorem tagMatches_scalar {e : Entry} {m : Metadata} (hk : isScalarKind e = true)
    (h : tagMatches e m = true) : ∀ l, m ≠ .List l := by
  intro l he
  subst he
  unfold tagMatches at h
  unfold isScalarKind at hk
  cases hke : entryKind e <;> rw [hke] at h hk <;> simp_all

theorem tagMatches_of_nonlist {e : Entry} {m : Metadata}
    (h : tagMatches e m = true) (hm : ∀ l, m ≠ .List l) : isScalarKind e = true := by
  unfold tagMatches at h
  unfold isScalarKind
  cases hke : entryKind e <;> rw [hke] at h <;> try rfl
  cases m with
  | List l => exact absurd rfl (hm l)
  | Text v => cases h
  | Size n => cases h
  | Timestamp t => cases h

theorem metadataOf_ok_of_numOk {e : Entry} {v : Bytes}
    (h : numOk (.Metadata e v) = true) : ∃ m, metadataOf e v = .ok m := by
  simp only [numOk] at h
  unfold metadataOf
  cases hk : entryKind e with
  | text => exact ⟨_, rfl⟩
  | list => exact ⟨_, rfl⟩
  | size =>
    rw [hk] at h
    cases hp : parseUnsigned v with
    | none => rw [hp] at h; cases h
    | some n => exact ⟨.Size n, rfl⟩
  | timestamp =>
    rw [hk] at h
    cases hp : parseSigned v with
    | none => rw [hp] at h; cases h
    | some n => exact ⟨.Timestamp n, rfl⟩

theorem numOk_false_elim {t : Token} (h : numOk t = false) :
    ∃ e v, t = .Metadata e v ∧ isScalarKind e = true ∧
      metadataOf e v = .error .malformedNumeric := by
  cases t with
  | Comment => cases h
  | Name v => cases h
  | Version v => cases h
  | Arch v => cases h
  | Metadata e v =>
    refine ⟨e, v, rfl, ?_, ?_⟩
    · simp only [numOk] at h
      unfold isScalarKind
      cases hk : entryKind e <;> rw [hk] at h <;> simp_all
    · simp only [numOk] at h
      unfold metadataOf
      cases hk : entryKind e
      · rw [hk] at h; simp at h
      · cases hp : parseUnsigned v with
        | none => rfl
        | some n => rw [hp, hk] at h; simp at h
      · cases hp : parseSigned v with
        | none => rfl
        | some n => rw [hp, hk] at h; simp at h
      · rw [hk] at h; simp at h

theorem step_mdWf {st st2 : BuildState} {t : Token}
    (h : stepToken st t = .ok st2) (hwf : mdWf st.metadata) : mdWf st2.metadata := by
  cases t with
  | Comment => cases h; exact hwf
  | Name v => cases h; exact hwf
  | Version v => cases h; exact hwf
  | Arch v => cases h; exact hwf
  | Metadata e v =>
    cases hl : mdLookup st.metadata e with
    | some m =>
      cases m with
      | List l =>
        simp only [stepToken, hl] at h
        cases h
        intro k m2 hk2
        by_cases hek : e = k
        · subst hek
          rw [mdLookup_set_self] at hk2
          cases hk2
          have ht := hwf e (.List l) hl
          unfold tagMatches at ht ⊢
          cases hke : entryKind e <;> rw [hke] at ht <;> simp_all
        · rw [mdLookup_set_ne _ hek] at hk2
          exact hwf k m2 hk2
      | Text v2 => simp only [stepToken, hl] at h; cases h
      | Size n => simp only [stepToken, hl] at h; cases h
      | Timestamp n => simp only [stepToken, hl] at h; cases h
    | none =>
      cases hm : metadataOf e v with
      | ok m =>
        simp only [stepToken, hl, hm] at h
        cases h
        intro k m2 hk2
        by_cases hek : e = k
        · subst hek
          rw [mdLookup_append_self m hl] at hk2
          cases hk2
          exact metadataOf_kind hm
        · rw [mdLookup_append_ne m hek] at hk2
          exact hwf k m2 hk2
      | error er => simp only [stepToken, hl, hm] at h; cases h

theorem step_pkgname {st st2 : BuildState} {t : Token} (h : stepToken st t = .ok st2) :
    st2.pkgname = match t with | .Name v => some v | _ => st.pkgname := by
  cases t with
  | Comment => cases h; rfl
  | Name v => cases h; rfl
  | Version v => cases h; rfl
  | Arch v => cases h; rfl
  | Metadata e v =>
    cases hl : mdLookup st.metadata e with
    | some m =>
      cases m with
      | List l => simp only [stepToken, hl] at h; cases h; rfl
      | Text v2 => simp only [stepToken, hl] at h; cases h
      | Size n => simp only [stepToken, hl] at h; cases h
      | Timestamp n => simp only [stepToken, hl] at h; cases h
    | none =>
      cases hm : metadataOf e v with
      | ok m => simp only [stepToken, hl, hm] at h; cases h; rfl
      | error er => simp only [stepToken, hl, hm] at h; cases h

theorem step_pkgver {st st2 : BuildState} {t : Token} (h : stepToken st t = .ok st2) :
    st2.pkgver = match t with | .Version v => some v | _ => st.pkgver := by
  cases t with
  | Comment => cases h; rfl
  | Name v => cases h; rfl
  | Version v => cases h; rfl
  | Arch v => cases h; rfl
  | Metadata e v =>
    cases hl : mdLookup st.metadata e with
    | some m =>
      cases m with
      | List l => simp only [stepToken, hl] at h; cases h; rfl
      | Text v2 => simp only [stepToken, hl] at h; cases h
      | Size n => simp only [stepToken, hl] at h; cases h
      | Timestamp n => simp only [stepToken, hl] at h; cases h
    | none =>
      cases hm : metadataOf e v with
      | ok m => simp only [stepToken, hl, hm] at h; cases h; rfl
      | error er => simp only [stepToken, hl, hm] at h; cases h

theorem run_mdWf {toks : List Token} {st st2 : BuildState}
    (h : runTokens st toks = .ok st2) (hwf : mdWf st.metadata) : mdWf st2.metadata := by
  induction toks generalizing st with
  | nil => cases h; exact hwf
  | cons t ts ih =>
    unfold runTokens at h
    cases hs : stepToken st t with
    | ok st3 =>
      rw [hs] at h
      exact ih h (step_mdWf hs hwf)
    | error e => rw [hs] at h; cases h

theorem run_name {toks : List Token} {st st2 : BuildState}
    (h : runTokens st toks = .ok st2) :
    st2.pkgname.isSome = (st.pkgname.isSome || hasName toks) := by
  induction toks generalizing st with
  | nil => cases h; simp [hasName]
  | cons t ts ih =>
    unfold runTokens at h
    cases hs : stepToken st t with
    | error e => rw [hs] at h; cases h
    | ok st3 =>
      rw [hs] at h
      have ih2 := ih h
      have hf := step_pkgname hs
      cases t with
      | Name v =>
        rw [ih2, hf]
        simp [hasName]
      | Comment => rw [ih2, hf]; simp [hasName]
      | Version v => rw [ih2, hf]; simp [hasName]
      | Arch v => rw [ih2, hf]; simp [hasName]
      | Metadata e v => rw [ih2, hf]; simp [hasName]

theorem run_version {toks : List Token} {st st2 : BuildState}
    (h : runTokens st toks = .ok st2) :
    st2.pkgver.isSome = (st.pkgver.isSome || hasVersion toks) := by
  induction toks generalizing st with
  | nil => cases h; simp [hasVersion]
  | cons t ts ih =>
    unfold runTokens at h
    cases hs : stepToken st t with
    | error e => rw [hs] at h; cases h
    | ok st3 =>
      rw [hs] at h
      have ih2 := ih h
      have hf := step_pkgver hs
      cases t with
      | Name v => rw [ih2, hf]; simp [hasVersion]
      | Comment => rw [ih2, hf]; simp [hasVersion]
      | Version v => rw [ih2, hf]; simp [hasVersion]
      | Arch v => rw [ih2, hf]; simp [hasVersion]
      | Metadata e v => rw [ih2, hf]; simp [hasVersion]

theorem step_lookup_ne {st st2 : BuildState} {e k : Entry} {v : Bytes}
    (h : stepToken st (.Metadata e v) = .ok st2) (hek : e ≠ k) :
    mdLookup st2.metadata k = mdLookup st.metadata k := by
  cases hl : mdLookup st.metadata e with
  | some m =>
    cases m with
    | List l =>
      simp only [stepToken, hl] at h
      cases h
      exact mdLookup_set_ne _ hek
    | Text v2 => simp only [stepToken, hl] at h; cases h
    | Size n => simp only [stepToken, hl] at h; cases h
    | Timestamp n => simp only [stepToken, hl] at h; cases h
  | none =>
    cases hm : metadataOf e v with
    | ok m =>
      simp only [stepToken, hl, hm] at h
      cases h
      exact mdLookup_append_ne _ hek
    | error er => simp only [stepToken, hl, hm] at h; cases h

theorem extendList_nil (cur : Option (List Bytes)) : extendList cur [] = cur := by
  cases cur <;> simp [extendList]

theorem listValues_cons_eq (k : Entry) (v : Bytes) (ts : List Token) :
    listValues k (.Metadata k v :: ts) = v :: listValues k ts := by
  simp [listValues]

theorem listValues_cons_ne {e k : Entry} (v : Bytes) (ts : List Token) (h : e ≠ k) :
    listValues k (.Metadata e v :: ts) = listValues k ts := by
  simp [listValues, h]

theorem run_list {k : Entry} (hk : entryKind k = .list) :
    ∀ (toks : List Token) (st st2 : BuildState) (cur : Option (List Bytes)),
      runTokens st toks = .ok st2 →
      mdLookup st.metadata k = cur.map Metadata.List →
      mdLookup st2.metadata k = (extendList cur (listValues k toks)).map Metadata.List := by
  intro toks
  induction toks with
  | nil =>
    intro st st2 cur h hcur
    cases h
    rw [show listValues k [] = [] from rfl, extendList_nil]
    exact hcur
  | cons t ts ih =>
    intro st st2 cur h hcur
    unfold runTokens at h
    cases hs : stepToken st t with
    | error e => rw [hs] at h; cases h
    | ok st3 =>
      rw [hs] at h
      cases t with
      | Comment =>
        cases hs
        rw [show listValues k (Token.Comment :: ts) = listValues k ts from by simp [listValues]]
        exact ih st st2 cur h hcur
      | Name v =>
        cases hs
        rw [show listValues k (Token.Name v :: ts) = listValues k ts from by simp [listValues]]
        exact ih _ st2 cur h hcur
      | Version v =>
        cases hs
        rw [show listValues k (Token.Version v :: ts) = listValues k ts from by simp [listValues]]
        exact ih _ st2 cur h hcur
      | Arch v =>
        cases hs
        rw [show listValues k (Token.Arch v :: ts) = listValues k ts from by simp [listValues]]
        exact ih _ st2 cur h hcur
      | Metadata e v =>
        by_cases hek : e = k
        · subst hek
          cases cur with
          | some l =>
            have hl : mdLookup st.metadata e = some (.List l) := by simpa using hcur
            simp only [stepToken, hl] at hs
            cases hs
            have hcur3 : mdLookup (mdSet st.metadata e (.List (l ++ [v]))) e
                = (some (l ++ [v])).map Metadata.List := by
              simp [mdLookup_set_self]
            have ih2 := ih _ st2 (some (l ++ [v])) h hcur3
            rw [ih2, listValues_cons_eq]
            simp [extendList]
          | none =>
            have hl : mdLookup st.metadata e = none := by simpa using hcur
            have hm : metadataOf e v = .ok (.List [v]) := by
              unfold metadataOf
              rw [hk]
            simp only [stepToken, hl, hm] at hs
            cases hs
            have hcur3 : mdLookup (st.metadata ++ [(e, Metadata.List [v])]) e
                = (some [v]).map Metadata.List := by
              simpa using mdLookup_append_self (Metadata.List [v]) hl
            have ih2 := ih _ st2 (some [v]) h hcur3
            rw [ih2, listValues_cons_eq]
            cases hlv : listValues e ts <;> simp [extendList]
        · have hpres := step_lookup_ne hs hek
          have ih2 := ih _ st2 cur h (hpres.trans hcur)
          rw [ih2, listValues_cons_ne v ts hek]

theorem scalar_ne_of_list {e k : Entry} (hke : entryKind e = .list)
    (hks : isScalarKind k = true) : e ≠ k := by
  intro h
  subst h
  unfold isScalarKind at hks
  rw [hke] at hks
  cases hks

theorem run_dup : ∀ (toks : List Token) (st : BuildState),
    numericsOk toks = true → mdWf st.metadata →
    (∃ k, isScalarKind k = true ∧
      2 ≤ (listValues k toks).length +
        (if (mdLookup st.metadata k).isSome then 1 else 0)) →
    runTokens st toks = .error .duplicateScalar := by
  intro toks
  induction toks with
  | nil =>
    intro st hn hw hex
    rcases hex with ⟨k, hks, hc⟩
    rw [show listValues k [] = [] from rfl] at hc
    by_cases hp : (mdLookup st.metadata k).isSome <;> simp [hp] at hc
  | cons t ts ih =>
    intro st hn hw hex
    have hn2 : numOk t = true ∧ numericsOk ts = true := by
      simpa [numericsOk] using hn
    unfold runTokens
    cases t with
    | Comment =>
      rcases hex with ⟨k, hks, hc⟩
      rw [show stepToken st .Comment = .ok st from rfl]
      exact ih st hn2.2 hw ⟨k, hks, by simpa [listValues] using hc⟩
    | Name v =>
      rcases hex with ⟨k, hks, hc⟩
      rw [show stepToken st (.Name v) = .ok { st with pkgname := some v } from rfl]
      exact ih _ hn2.2 hw ⟨k, hks, by simpa [listValues] using hc⟩
    | Version v =>
      rcases hex with ⟨k, hks, hc⟩
      rw [show stepToken st (.Version v) = .ok { st with pkgver := some v } from rfl]
      exact ih _ hn2.2 hw ⟨k, hks, by simpa [listValues] using hc⟩
    | Arch v =>
      rcases hex with ⟨k, hks, hc⟩
      rw [show stepToken st (.Arch v) = .ok { st with arch := some v } from rfl]
      exact ih _ hn2.2 hw ⟨k, hks, by simpa [listValues] using hc⟩
    | Metadata e v =>
      rcases hex with ⟨k, hks, hc⟩
      cases hl : mdLookup st.metadata e with
      | some m =>
        cases m with
        | List l =>
          have hke : entryKind e = .list := by
            have ht := hw e (.List l) hl
            unfold tagMatches at ht
            cases hk2 : entryKind e <;> rw [hk2] at ht <;> simp_all
          have hek : e ≠ k := scalar_ne_of_list hke hks
          have hstep : stepToken st (.Metadata e v)
              = .ok { st with metadata := mdSet st.metadata e (.List (l ++ [v])) } := by
            simp [stepToken, hl]
          rw [hstep]
          apply ih _ hn2.2 (step_mdWf hstep hw)
          refine ⟨k, hks, ?_⟩
          have hpres := step_lookup_ne hstep hek
          rw [listValues_cons_ne v ts hek] at hc
          rw [hpres]
          exact hc
        | Text v2 => simp [runTokens, stepToken, hl]
        | Size n => simp [runTokens, stepToken, hl]
        | Timestamp n => simp [runTokens, stepToken, hl]
      | none =>
        obtain ⟨m, hm⟩ := metadataOf_ok_of_numOk hn2.1
        have hstep : stepToken st (.Metadata e v)
            = .ok { st with metadata := st.metadata ++ [(e, m)] } := by
          simp [stepToken, hl, hm]
        rw [hstep]
        apply ih _ hn2.2 (step_mdWf hstep hw)
        by_cases hek : e = k
        · subst hek
          refine ⟨e, hks, ?_⟩
          have hpres : mdLookup (st.metadata ++ [(e, m)]) e = some m :=
            mdLookup_append_self m hl
          rw [listValues_cons_eq] at hc
          rw [hl] at hc
          simp only [hpres]
          simp at hc ⊢
          omega
        · refine ⟨k, hks, ?_⟩
          have hpres : mdLookup (st.metadata ++ [(e, m)]) k = mdLookup st.metadata k :=
            mdLookup_append_ne m hek
          rw [listValues_cons_ne v ts hek] at hc
          rw [hpres]
          exact hc

theorem run_badnum : ∀ (toks : List Token) (st : BuildState),
    numericsOk toks = false → mdWf st.metadata →
    (∀ k, isScalarKind k = true →
      (listValues k toks).length +
        (if (mdLookup st.metadata k).isSome then 1 else 0) ≤ 1) →
    runTokens st toks = .error .malformedNumeric := by
  intro toks
  induction toks with
  | nil =>
    intro st hn hw hnd
    simp [numericsOk] at hn
  | cons t ts ih =>
    intro st hn hw hnd
    unfold runTokens
    cases hnt : numOk t with
    | false =>
      obtain ⟨e, v, hte, hes, hmf⟩ := numOk_false_elim hnt
      subst hte
      have hl : mdLookup st.metadata e = none := by
        have hde := hnd e hes
        rw [listValues_cons_eq] at hde
        cases hp : mdLookup st.metadata e with
        | none => rfl
        | some m =>
          rw [hp] at hde
          simp at hde
      simp [stepToken, hl, hmf]
    | true =>
      have hns : numericsOk ts = false := by
        rw [show numericsOk (t :: ts) = (numOk t && numericsOk ts) from by
          simp [numericsOk]] at hn
        rw [hnt] at hn
        simpa using hn
      cases t with
      | Comment =>
        rw [show stepToken st .Comment = .ok st from rfl]
        exact ih st hns hw (fun k hks => by
          have := hnd k hks
          simpa [listValues] using this)
      | Name v =>
        rw [show stepToken st (.Name v) = .ok { st with pkgname := some v } from rfl]
        exact ih _ hns hw (fun k hks => by
          have := hnd k hks
          simpa [listValues] using this)
      | Version v =>
        rw [show stepToken st (.Version v) = .ok { st with pkgver := some v } from rfl]
        exact ih _ hns hw (fun k hks => by
          have := hnd k hks
          simpa [listValues] using this)
      | Arch v =>
        rw [show stepToken st (.Arch v) = .ok { st with arch := some v } from rfl]
        exact ih _ hns hw (fun k hks => by
          have := hnd k hks
          simpa [listValues] using this)
      | Metadata e v =>
        cases hl : mdLookup st.metadata e with
        | some m =>
          cases m with
          | List l =>
            have hke : entryKind e = .list := by
              have ht := hw e (.List l) hl
              unfold tagMatches at ht
              cases hk2 : entryKind e <;> rw [hk2] at ht <;> simp_all
            have hstep : stepToken st (.Metadata e v)
                = .ok { st with metadata := mdSet st.metadata e (.List (l ++ [v])) } := by
              simp [stepToken, hl]
            rw [hstep]
            apply ih _ hns (step_mdWf hstep hw)
            intro k hks
            have hek : e ≠ k := scalar_ne_of_list hke hks
            have hpres := step_lookup_ne hstep hek
            have := hnd k hks
            rw [listValues_cons_ne v ts hek] at this
            rw [hpres]
            exact this
          | Text v2 =>
            exfalso
            have hes : isScalarKind e = true :=
              tagMatches_of_nonlist (hw e (.Text v2) hl) (by intro l2 hh; cases hh)
            have hde := hnd e hes
            rw [listValues_cons_eq, hl] at hde
            simp at hde
          | Size n =>
            exfalso
            have hes : isScalarKind e = true :=
              tagMatches_of_nonlist (hw e (.Size n) hl) (by intro l2 hh; cases hh)
            have hde := hnd e hes
            rw [listValues_cons_eq, hl] at hde
            simp at hde
          | Timestamp n =>
            exfalso
            have hes : isScalarKind e = true :=
              tagMatches_of_nonlist (hw e (.Timestamp n) hl) (by intro l2 hh; cases hh)
            have hde := hnd e hes
            rw [listValues_cons_eq, hl] at hde
            simp at hde
        | none =>
          obtain ⟨m, hm⟩ := metadataOf_ok_of_numOk hnt
          have hstep : stepToken st (.Metadata e v)
              = .ok { st with metadata := st.metadata ++ [(e, m)] } := by
            simp [stepToken, hl, hm]
          rw [hstep]
          apply ih _ hns (step_mdWf hstep hw)
          intro k hks
          by_cases hek : e = k
          · subst hek
            have hpres : mdLookup (st.metadata ++ [(e, m)]) e = some m :=
              mdLookup_append_self m hl
            have hde := hnd e hks
            rw [listValues_cons_eq, hl] at hde
            simp at hde
            simp [hpres, hde]
          · have hpres : mdLookup (st.metadata ++ [(e, m)]) k = mdLookup st.metadata k :=
              mdLookup_append_ne m hek
            have hde := hnd k hks
            rw [listValues_cons_ne v ts hek] at hde
            rw [hpres]
            exact hde

theorem build_pkg_some {toks : List Token} {pkg : Package}
    (h : build_pkg toks = .ok (some pkg)) :
    ∃ st, runTokens initState toks = .ok st ∧ pkg.metadata = st.metadata := by
  unfold build_pkg at h
  cases hr : runTokens initState toks with
  | error e => rw [hr] at h; simp at h
  | ok st =>
    rw [hr] at h
    simp only [Except.ok.injEq] at h
    refine ⟨st, rfl, ?_⟩
    cases hn : st.pkgname with
    | none => rw [hn] at h; simp at h
    | some n =>
      cases hv : st.pkgver with
      | none => rw [hn, hv] at h; simp at h
      | some v =>
        rw [hn, hv] at h
        simp at h
        subst h
        rfl

/-- A metadata line whose value bytes are not valid UTF-8 makes every
branch of the tokenizer's alternation fail with `Error`. -/
theorem lineAlt_badvalue_err (j : Fin entryKeyList.length) (s1 s2 v r : Bytes)
    (hs1 : SpRun s1) (hs2 : ∀ c ∈ s2, isSpaceByte c = true)
    (hv10 : (10 : Nat) ∉ v) (hvu : isValidUtf8 v = false)
    (hvh : headNot isSpaceByte v) :
    lineAlt (ekey j ++ (s1 ++ (61 :: (s2 ++ (v ++ 10 :: r))))) = .error := by
  have hmd : metadata (ekey j ++ (s1 ++ (61 :: (s2 ++ (v ++ 10 :: r))))) = .error := by
    unfold metadata
    rw [pbind_done _ (keyAlt_entry_done j _)]
    rw [pbind_done _ (space_run _ hs1.1 hs1.2 (headNot_cons _ (by decide)))]
    have h61 : (61 : Nat) :: (s2 ++ (v ++ 10 :: r)) = [61] ++ (s2 ++ (v ++ 10 :: r)) := rfl
    rw [h61, pbind_done _ (tag_done [61] _)]
    obtain ⟨o, ho⟩ := popt_space_run (v ++ 10 :: r) hs2 (headNot_app_nl r hvh)
    rw [pbind_done _ ho]
    exact pbind_err _ (value_app_bad r hv10 hvu)
  unfold lineAlt
  obtain ⟨hc, hn, hv2, ha⟩ := keysOuter j
  rw [palt_err (comment_err (tag_error_append _ hc.1 hc.2))]
  have h2 : pkgname (ekey j ++ (s1 ++ (61 :: (s2 ++ (v ++ 10 :: r))))) = .error :=
    keyValP_err Token.Name (tag_error_append _ hn.1 hn.2)
  have h3 : pkgver (ekey j ++ (s1 ++ (61 :: (s2 ++ (v ++ 10 :: r))))) = .error :=
    keyValP_err Token.Version (tag_error_append _ hv2.1 hv2.2)
  have h4 : arch (ekey j ++ (s1 ++ (61 :: (s2 ++ (v ++ 10 :: r))))) = .error :=
    keyValP_err Token.Arch (tag_error_append _ ha.1 ha.2)
  rw [palt_err h2, palt_err h3, palt_err h4]
  exact hmd

theorem ekey_headNot (j : Fin entryKeyList.length) (rest : Bytes) :
    headNot isMsByte (ekey j ++ rest) := by
  obtain ⟨hne, hh⟩ := keysHead j
  cases hek : ekey j with
  | nil => exact absurd hek hne
  | cons c t =>
    rw [hek] at hh
    simp only [List.headI] at hh
    exact headNot_cons _ hh

/-- C1, counterexample to the claim as stated: after the valid first line
`pkgname = a`, line 2 is ` x = y` (unrecognized, starting with a space).
The claim asserts the remainder begins exactly at line 2's first byte (the
space), but the inter-token `opt!(multispace)` has already consumed that
space: the remainder is `x = y\n`, not ` x = y\n`. -/
theorem c1_counterexample :
    pkginfo (bs "pkgname = a\n x = y\n") = .done (bs "x = y\n") [Token.Name (bs "a")]
      ∧ bs "x = y\n" ≠ bs " x = y\n" :=
  ⟨rfl, by decide⟩

/-- C1 (amended): for every input whose first N lines are well-formed
recognized lines and whose line N+1 matches no recognized form and does not
begin with a whitespace byte, tokenization returns exactly the N tokens of
those lines and the unconsumed remainder starting exactly at line N+1's
first byte, with no error.  (Without the whitespace proviso the trailing
`opt!(multispace)` of the previous token consumes line N+1's leading
whitespace first.) -/
theorem c1_stop_at_unknown (ls : List SrcLine) (c : Nat) (r2 : Bytes)
    (hwf : ∀ L ∈ ls, WfLine L) (hc : isMsByte c = false)
    (hstop : lineAlt (c :: r2) = .error) :
    pkginfo (renderLines ls ++ c :: r2) = .done (c :: r2) (ls.map tokenOf) :=
  pkginfo_render_stop ls (c :: r2) hwf (by simp) (headNot_cons _ hc) hstop

theorem c1_witness :
    pkginfo (renderLines [SrcLine.nameL [32] [32] (bs "a")] ++ 120 :: bs " = y\n")
      = .done (120 :: bs " = y\n") [Token.Name (bs "a")] :=
  c1_stop_at_unknown [SrcLine.nameL [32] [32] (bs "a")] 120 (bs " = y\n")
    (by decide) (by decide) (by decide)

/-- C2: when tokenization stops early with a non-empty remainder and the
assembler completes, the top-level `parse_pkginfo` returns `Done` carrying
that same remainder and the assembled result: partial consumption is a
silent, valid outcome, not an error or an abort. -/
theorem c2_partial_consumption_silent (i rest : Bytes) (toks : List Token)
    (res : Option Package) (h1 : pkginfo i = .done rest toks) (h2 : rest ≠ [])
    (h3 : build_pkg toks = .ok res) :
    parse_pkginfo i = .ok (.done rest res) := by
  simp only [parse_pkginfo, h1, h3]

theorem c2_witness :
    parse_pkginfo (bs "pkgname = a\npkgver = 1\nbad\n")
      = .ok (.done (bs "bad\n") (some ⟨bs "a", bs "1", [], []⟩)) :=
  c2_partial_consumption_silent _ _ [Token.Name (bs "a"), Token.Version (bs "1")] _
    rfl (by decide) rfl

/-- C3, counterexample to the claim as stated: the separator does not
accept zero whitespace characters: `pkgname=a` fails (no space before the
`=`), `pkgname =a` fails (no space after the `=` on a name line), and
`url=a` fails (no space before the `=` on a metadata line). -/
theorem c3_counterexample :
    pkgname (bs "pkgname=a\n") = .error
      ∧ pkgname (bs "pkgname =a\n") = .error
      ∧ metadata (bs "url=a\n") = .error :=
  ⟨rfl, rfl, rfl⟩

/-- C3 (amended): the separator requires at least one horizontal whitespace
byte before the `=` on every key-value form; after the `=`, name/version/
arch lines require at least one whitespace byte while metadata lines accept
zero or more; the value text (possibly empty) runs to the next line feed. -/
theorem c3_separator_whitespace :
    (∀ s1 s2 v r, SpRun s1 → SpRun s2 → ValOk v →
        pkgname (bs "pkgname" ++ (s1 ++ (61 :: (s2 ++ (v ++ 10 :: r)))))
          = .done (10 :: r) (.Name v))
    ∧ (∀ j : Fin entryKeyList.length, ∀ s1 v r, SpRun s1 → ValOk v →
        metadata (ekey j ++ (s1 ++ (61 :: (v ++ 10 :: r))))
          = .done (10 :: r) (.Metadata (eent j) v))
    ∧ (∀ r, pkgname (bs "pkgname" ++ (61 :: r)) = .error)
    ∧ (∀ j : Fin entryKeyList.length, ∀ r, metadata (ekey j ++ (61 :: r)) = .error)
    ∧ (∀ s1 c r, SpRun s1 → isSpaceByte c = false →
        pkgname (bs "pkgname" ++ (s1 ++ (61 :: (c :: r)))) = .error) := by
  refine ⟨?_, ?_, ?_, ?_, ?_⟩
  · intro s1 s2 v r hs1 hs2 hv
    exact keyValP_done Token.Name s1 s2 v r hs1 hs2 hv
  · intro j s1 v r hs1 hv
    have h := metadata_done j s1 [] v r hs1 (by simp) hv
    simpa using h
  · intro r
    unfold pkgname keyValP
    rw [pbind_done _ (tag_done _ _)]
    exact pbind_err _ (pbind_err _ (space_err r (by decide)))
  · intro j r
    unfold metadata
    rw [pbind_done _ (keyAlt_entry_done j _)]
    exact pbind_err _ (space_err r (by decide))
  · intro s1 c r hs1 hc
    unfold pkgname keyValP
    rw [pbind_done _ (tag_done _ _)]
    apply pbind_err
    unfold seperator
    rw [pbind_done _ (space_run _ hs1.1 hs1.2 (headNot_cons _ (by decide)))]
    have h61 : (61 : Nat) :: (c :: r) = [61] ++ (c :: r) := rfl
    rw [h61, pbind_done _ (tag_done [61] _)]
    exact pbind_err _ (space_err r hc)

theorem c3_witness :
    pkgname (bs "pkgname" ++ ([32] ++ (61 :: ([32] ++ (bs "x" ++ 10 :: [])))))
      = .done (10 :: []) (.Name (bs "x")) :=
  c3_separator_whitespace.1 [32] [32] (bs "x") [] (by decide) (by decide) (by decide)

/-- C4, counterexample to the claim as stated: a value that is not valid
UTF-8 (byte 0xFF) does not make the whole parse fail; the tokens before the
bad line are returned, a full Package is assembled from them, and the bad
line is silently left as remainder. -/
theorem c4_counterexample :
    parse_pkginfo (bs "pkgname = a\npkgver = 1\nurl = " ++ (255 :: [10]))
      = .ok (.done (bs "url = " ++ (255 :: [10])) (some ⟨bs "a", bs "1", [], []⟩))
      ∧ isValidUtf8 [255] = false :=
  ⟨rfl, by decide⟩

/-- C4 (amended): a metadata line whose value bytes are not valid UTF-8
fails to tokenize (`map_res!` makes it an `Error`), so `many0!` stops
there: tokenization returns the tokens of the preceding lines and the
remainder beginning at that line's first byte — no fatal decode error for
the whole parse. -/
theorem c4_invalid_utf8_stops (ls : List SrcLine) (j : Fin entryKeyList.length)
    (s1 s2 v r : Bytes) (hwf : ∀ L ∈ ls, WfLine L) (hs1 : SpRun s1)
    (hs2 : ∀ c ∈ s2, isSpaceByte c = true) (hv10 : (10 : Nat) ∉ v)
    (hvu : isValidUtf8 v = false) (hvh : headNot isSpaceByte v) :
    pkginfo (renderLines ls ++ (ekey j ++ (s1 ++ (61 :: (s2 ++ (v ++ 10 :: r))))))
      = .done (ekey j ++ (s1 ++ (61 :: (s2 ++ (v ++ 10 :: r))))) (ls.map tokenOf) := by
  apply pkginfo_render_stop ls _ hwf ?_ (ekey_headNot j _)
    (lineAlt_badvalue_err j s1 s2 v r hs1 hs2 hv10 hvu hvh)
  obtain ⟨hne, _⟩ := keysHead j
  cases hek : ekey j with
  | nil => exact absurd hek hne
  | cons c t => simp

theorem c4_witness :
    pkginfo (renderLines [] ++ (ekey ⟨2, by decide⟩ ++ ([32] ++ (61 :: ([32] ++ ([255] ++ 10 :: []))))))
      = .done (ekey ⟨2, by decide⟩ ++ ([32] ++ (61 :: ([32] ++ ([255] ++ 10 :: []))))) [] :=
  c4_invalid_utf8_stops [] ⟨2, by decide⟩ [32] [32] [255] [] (by decide) (by decide)
    (by decide) (by decide) (by decide) (by decide)

/-- C5, counterexample to the claim as stated: in this token sequence the
Text-kind key `Base` occurs twice, yet the assembler never reaches the
`panic!` branch: the earlier `InstallSize` token's value fails numeric
parsing, which is fatal first (a recoverable `MalformedNumericField` in the
spec's own taxonomy, not the invalid-state abort). -/
theorem c5_counterexample :
    build_pkg [Token.Metadata .InstallSize (bs "x"), Token.Metadata .Base (bs "a"),
        Token.Metadata .Base (bs "b")] = .error .malformedNumeric
      ∧ build_pkg [Token.Metadata .InstallSize (bs "x"), Token.Metadata .Base (bs "a"),
        Token.Metadata .Base (bs "b")] ≠ .error .duplicateScalar
      ∧ isScalarKind Entry.Base = true
      ∧ 2 ≤ (listValues .Base [Token.Metadata .InstallSize (bs "x"),
          Token.Metadata .Base (bs "a"), Token.Metadata .Base (bs "b")]).length :=
  ⟨rfl, by decide, by decide, by decide⟩

/-- C5 (amended): for every token sequence in which some Text/Integer-kind
key occurs more than once and every Integer-kind occurrence's value parses,
the assembler reaches the invalid-state `panic!` branch (modelled as the
`duplicateScalar` fatal outcome) rather than returning a record or a
recoverable error. -/
theorem c5_duplicate_scalar_panics (toks : List Token)
    (hnum : numericsOk toks = true)
    (hdup : ∃ k, isScalarKind k = true ∧ 2 ≤ (listValues k toks).length) :
    build_pkg toks = .error .duplicateScalar := by
  unfold build_pkg
  rw [run_dup toks initState hnum (fun k m h => by cases h) ?_]
  rcases hdup with ⟨k, hks, hc⟩
  exact ⟨k, hks, by simpa using hc⟩

theorem c5_witness :
    build_pkg [Token.Metadata .Base (bs "a"), Token.Metadata .Base (bs "b")]
      = .error .duplicateScalar :=
  c5_duplicate_scalar_panics _ (by decide) ⟨.Base, by decide, by decide⟩

/-- C6: when assembly completes, a Package is produced exactly when both a
`pkgname` and a `pkgver` token were observed; lacking either, the result is
absent (no record, no error), however many other valid lines were seen. -/
theorem c6_required_fields (toks : List Token) (res : Option Package)
    (hok : build_pkg toks = .ok res) :
    res.isSome = (hasName toks && hasVersion toks) := by
  unfold build_pkg at hok
  cases hr : runTokens initState toks with
  | error e => rw [hr] at hok; simp at hok
  | ok st =>
    rw [hr] at hok
    simp only [Except.ok.injEq] at hok
    have hn := run_name hr
    have hv := run_version hr
    simp only [initState, Option.isSome_none, Bool.false_or] at hn hv
    subst hok
    cases hpn : st.pkgname with
    | none =>
      rw [hpn] at hn
      simp only [Option.isSome_none] at hn
      simp [← hn]
    | some n =>
      cases hpv : st.pkgver with
      | none =>
        rw [hpv] at hv
        rw [hpn] at hn
        simp only [Option.isSome_none] at hv
        simp only [Option.isSome_some] at hn
        simp [← hn, ← hv]
      | some v =>
        rw [hpn] at hn
        rw [hpv] at hv
        simp only [Option.isSome_some] at hn hv
        simp [← hn, ← hv]

theorem c6_witness :
    (some (⟨bs "n", bs "v", [], []⟩ : Package)).isSome
      = (hasName [Token.Name (bs "n"), Token.Version (bs "v")]
          && hasVersion [Token.Name (bs "n"), Token.Version (bs "v")]) :=
  c6_required_fields _ _ rfl

/-- C7: for a List-kind key occurring with values v1..vN in token order,
the assembled Package's entry for that key is exactly the ordered list
[v1, ..., vN]; the fold only ever appends. -/
theorem c7_list_accumulation (toks : List Token) (k : Entry) (pkg : Package)
    (hk : entryKind k = .list) (hok : build_pkg toks = .ok (some pkg))
    (hvs : listValues k toks ≠ []) :
    mdLookup pkg.metadata k = some (.List (listValues k toks)) := by
  obtain ⟨st, hr, hmd⟩ := build_pkg_some hok
  have h := run_list hk toks initState st none hr rfl
  rw [hmd, h]
  cases hlv : listValues k toks with
  | nil => exact absurd hlv hvs
  | cons a l => simp [extendList]

theorem c7_witness :
    mdLookup (⟨bs "a", bs "1", [], [(Entry.Depends, Metadata.List [bs "x", bs "y"])]⟩
        : Package).metadata .Depends
      = some (.List (listValues .Depends
          [Token.Name (bs "a"), Token.Version (bs "1"),
           Token.Metadata .Depends (bs "x"), Token.Metadata .Depends (bs "y")])) :=
  c7_list_accumulation
    [Token.Name (bs "a"), Token.Version (bs "1"),
     Token.Metadata .Depends (bs "x"), Token.Metadata .Depends (bs "y")]
    .Depends _ rfl rfl (by decide)

/-- C8: a buffer consisting of well-formed lines and then a nonempty piece
of one more well-formed line, cut before its terminating line feed, makes
the tokenizer report `Incomplete` (a request for more bytes, not an
error), and `parse_pkginfo` propagates that signal. -/
theorem c8_incomplete_midline (ls : List SrcLine) (L : SrcLine) (p : Bytes)
    (hwf : ∀ L2 ∈ ls, WfLine L2) (hwfL : WfLine L) (hne : p ≠ [])
    (hp : p <+: lineBody L) :
    pkginfo (renderLines ls ++ p) = .incomplete
      ∧ parse_pkginfo (renderLines ls ++ p) = .ok .incomplete := by
  have h := pkginfo_render_pre ls L p hwf hwfL hne hp
  exact ⟨h, by simp only [parse_pkginfo, h]⟩

theorem c8_witness :
    pkginfo (renderLines [] ++ bs "pkgname = fo") = .incomplete
      ∧ parse_pkginfo (renderLines [] ++ bs "pkgname = fo") = .ok .incomplete :=
  c8_incomplete_midline [] (SrcLine.nameL [32] [32] (bs "foo")) (bs "pkgname = fo")
    (by decide) (by decide) (by decide) (by decide)

/-- C9, counterexample to the claim as stated: the first (and only)
occurrence of the `size` key carries the unparseable value `x`, yet the
whole parse does not fail with the malformed-numeric-field outcome: the
repeated Text-kind key `Base` aborts the fold first, at the `panic!`
branch. -/
theorem c9_counterexample :
    build_pkg [Token.Metadata .Base (bs "a"), Token.Metadata .Base (bs "b"),
        Token.Metadata .InstallSize (bs "x")] = .error .duplicateScalar
      ∧ build_pkg [Token.Metadata .Base (bs "a"), Token.Metadata .Base (bs "b"),
        Token.Metadata .InstallSize (bs "x")] ≠ .error .malformedNumeric
      ∧ parseUnsigned (bs "x") = none
      ∧ listValues .InstallSize [Token.Metadata .Base (bs "a"),
          Token.Metadata .Base (bs "b"), Token.Metadata .InstallSize (bs "x")]
        = [bs "x"] :=
  ⟨rfl, by decide, by decide, by decide⟩

/-- C9 (amended): for every token sequence in which no Text/Integer-kind
key repeats and some Integer-kind key's value fails its integer parse, the
whole assembly fails with the fatal malformed-numeric-field outcome and no
record is returned. -/
theorem c9_malformed_numeric_fatal (toks : List Token)
    (hnodup : ∀ k, isScalarKind k = true → (listValues k toks).length ≤ 1)
    (hbad : numericsOk toks = false) :
    build_pkg toks = .error .malformedNumeric := by
  unfold build_pkg
  rw [run_badnum toks initState hbad (fun k m h => by cases h)
    (fun k hks => by simpa using hnodup k hks)]

theorem c9_witness :
    build_pkg [Token.Metadata .InstallSize (bs "12x")] = .error .malformedNumeric :=
  c9_malformed_numeric_fatal _ (by decide) (by decide)

/-- C10: the kind invariant — every stored Metadata value's tag matches its
Entry's fixed kind — is preserved by each fold step and holds for every
Entry of every assembled Package. -/
theorem c10_kind_invariant :
    (∀ (st st2 : BuildState) (t : Token), stepToken st t = .ok st2 →
        mdWf st.metadata → mdWf st2.metadata)
    ∧ (∀ (toks : List Token) (pkg : Package), build_pkg toks = .ok (some pkg) →
        ∀ k m, mdLookup pkg.metadata k = some m → tagMatches k m = true) := by
  constructor
  · exact fun st st2 t h hw => step_mdWf h hw
  · intro toks pkg hok k m hkm
    obtain ⟨st, hr, hmd⟩ := build_pkg_some hok
    rw [hmd] at hkm
    exact run_mdWf hr (fun k2 m2 h2 => by cases h2) k m hkm

theorem c10_witness :
    tagMatches Entry.Depends (Metadata.List [bs "x"]) = true :=
  c10_kind_invariant.2
    [Token.Name (bs "a"), Token.Version (bs "1"), Token.Metadata .Depends (bs "x")]
    ⟨bs "a", bs "1", [], [(Entry.Depends, Metadata.List [bs "x"])]⟩ rfl
    .Depends (Metadata.List [bs "x"]) rfl
